import Mathlib

/-!
Verification of the editing core of the Kaizen skin editor.

The definitions below are shallow embeddings of the TypeScript sources:
`src/lib/tools/PaintTargetValidator.ts`, `src/lib/utils/geometry.ts`,
`src/lib/utils/color.ts`, `src/lib/history/HistoryManager.ts`, the command
classes, `src/lib/tools/BaseTool.ts`, the fill / line / gradient / selection
tools and the `SynchronizationManager`.  JavaScript numbers that hold pixel
coordinates are embedded as `Int`; colour channels are embedded as `Nat`
(they are stored in `Uint8ClampedArray`s, whose writes clamp to `[0, 255]`
and ignore out-of-range indices, which is modelled explicitly).
-/

/-- RGBA colour: four channels as carried around by the tools. -/
structure RGBA where
  r : Nat
  g : Nat
  b : Nat
  a : Nat
deriving DecidableEq, Repr

/-- A 2-D point with integer coordinates (`Point` in `core/types/skin.ts`). -/
structure Point where
  x : Int
  y : Int
deriving DecidableEq, Repr

/-- A pixel record: coordinates plus colour (`Pixel` in `core/types/skin.ts`). -/
structure Pixel where
  x : Int
  y : Int
  color : RGBA
deriving DecidableEq, Repr

/-- `BASE_UV_REGIONS` from `PaintTargetValidator.ts`: each entry is
`(x1, y1, x2, y2)`, a half-open rectangle `[x1,x2) × [y1,y2)`. -/
def BASE_UV_REGIONS : List (Int × Int × Int × Int) :=
  [(8, 0, 24, 8), (0, 8, 32, 16),
   (4, 16, 12, 20), (0, 20, 16, 32),
   (20, 16, 36, 20), (16, 20, 40, 32),
   (44, 16, 52, 20), (40, 20, 56, 32),
   (20, 48, 28, 52), (16, 52, 32, 64),
   (36, 48, 44, 52), (32, 52, 48, 64)]

/-- `OVERLAY_UV_REGIONS` from `PaintTargetValidator.ts`. -/
def OVERLAY_UV_REGIONS : List (Int × Int × Int × Int) :=
  [(40, 0, 56, 8), (32, 8, 64, 16),
   (4, 32, 12, 36), (0, 36, 16, 48),
   (20, 32, 36, 36), (16, 36, 40, 48),
   (44, 32, 52, 36), (40, 36, 56, 48),
   (4, 48, 12, 52), (0, 52, 16, 64),
   (52, 48, 60, 52), (48, 52, 64, 64)]

/-- Membership of a coordinate in one rectangle of a region table. -/
def inRegion (x y : Int) (rect : Int × Int × Int × Int) : Bool :=
  match rect with
  | (x1, y1, x2, y2) => decide (x1 ≤ x) && decide (x < x2) && decide (y1 ≤ y) && decide (y < y2)

/-- `isBasePixel` from `PaintTargetValidator.ts`. -/
def isBasePixel (x y : Int) : Bool :=
  BASE_UV_REGIONS.any (inRegion x y)

/-- `isOverlayPixel` from `PaintTargetValidator.ts`. -/
def isOverlayPixel (x y : Int) : Bool :=
  OVERLAY_UV_REGIONS.any (inRegion x y)

/-- `PaintTarget` from `tools/types.ts`. -/
inductive PaintTarget where
  | base
  | overlay
deriving DecidableEq, Repr

/-- `isValidForPaintTarget` from `PaintTargetValidator.ts`. -/
def isValidForPaintTarget (x y : Int) (paintTarget : PaintTarget) : Bool :=
  match paintTarget with
  | .base => isBasePixel x y
  | .overlay => isOverlayPixel x y

/-- `isInBounds` from `PaintTargetValidator.ts`. -/
def isInBounds (x y width height : Int) : Bool :=
  decide (0 ≤ x) && decide (x < width) && decide (0 ≤ y) && decide (y < height)

/-- Region disjointness checked on the 64×64 grid via `Fin`. -/
theorem base_overlay_disjoint_fin :
    ∀ a b : Fin 64, ¬ (isBasePixel (a.val : Int) (b.val : Int) = true ∧
      isOverlayPixel (a.val : Int) (b.val : Int) = true) := by decide

/-- C3: for every (x, y) with 0 ≤ x < 64 and 0 ≤ y < 64, `isBasePixel` and
`isOverlayPixel` are never both true: the static base and overlay rectangle
tables are disjoint as half-open rectangles. -/
theorem C3_base_overlay_regions_disjoint (x y : Int)
    (hx0 : 0 ≤ x) (hx : x < 64) (hy0 : 0 ≤ y) (hy : y < 64) :
    ¬ (isBasePixel x y = true ∧ isOverlayPixel x y = true) := by
  have hxn : x.toNat < 64 := by omega
  have hyn : y.toNat < 64 := by omega
  have hx' : ((x.toNat : Nat) : Int) = x := Int.toNat_of_nonneg hx0
  have hy' : ((y.toNat : Nat) : Int) = y := Int.toNat_of_nonneg hy0
  have := base_overlay_disjoint_fin ⟨x.toNat, hxn⟩ ⟨y.toNat, hyn⟩
  simpa [hx', hy'] using this

/-- Witness for C3 at the concrete pixel (10, 10). -/
theorem C3_base_overlay_regions_disjoint_witness :
    ¬ (isBasePixel 10 10 = true ∧ isOverlayPixel 10 10 = true) :=
  C3_base_overlay_regions_disjoint 10 10 (by decide) (by decide) (by decide) (by decide)

/-- `SymmetryMode` from `core/types/skin.ts`. -/
inductive SymmetryMode where
  | none
  | horizontal
  | vertical
  | both
deriving DecidableEq, Repr

/-- Horizontal mirror used by `applySymmetry`: `x' = width - 1 - x`. -/
def hMirror (canvasWidth : Int) (p : Point) : Point :=
  ⟨canvasWidth - 1 - p.x, p.y⟩

/-- Vertical mirror used by `applySymmetry`: `y' = height - 1 - y`. -/
def vMirror (canvasHeight : Int) (p : Point) : Point :=
  ⟨p.x, canvasHeight - 1 - p.y⟩

/-- `applySymmetry` from `utils/geometry.ts`, ported push-by-push. -/
def applySymmetry (point : Point) (mode : SymmetryMode)
    (canvasWidth canvasHeight : Int) : List Point :=
  if mode = .none then
    [point]
  else
    let points := [point]
    let points := if mode = .horizontal ∨ mode = .both
      then points ++ [hMirror canvasWidth point] else points
    let points := if mode = .vertical ∨ mode = .both
      then points ++ [vMirror canvasHeight point] else points
    if mode = .both
      then points ++ [⟨canvasWidth - 1 - point.x, canvasHeight - 1 - point.y⟩]
      else points

/-- C7: `applySymmetry` returns the original point followed by the horizontal
mirror, vertical mirror and both-mirror as the mode requires (1/2/2/4 points),
and each mirroring map is an involution. -/
theorem C7_applySymmetry_spec (p : Point) (mode : SymmetryMode) (w h : Int) :
    (applySymmetry p mode w h = match mode with
      | .none => [p]
      | .horizontal => [p, hMirror w p]
      | .vertical => [p, vMirror h p]
      | .both => [p, hMirror w p, vMirror h p, hMirror w (vMirror h p)])
    ∧ (applySymmetry p mode w h).length =
        (match mode with | .none => 1 | .horizontal => 2 | .vertical => 2 | .both => 4)
    ∧ hMirror w (hMirror w p) = p
    ∧ vMirror h (vMirror h p) = p
    ∧ hMirror w (vMirror h (hMirror w (vMirror h p))) = p := by
  refine ⟨?_, ?_, ?_, ?_, ?_⟩
  · cases mode <;> simp [applySymmetry, hMirror, vMirror]
  · cases mode <;> simp [applySymmetry]
  · simp only [hMirror]
    cases p with | mk px py => simp
  · simp only [vMirror]
    cases p with | mk px py => simp
  · simp only [hMirror, vMirror]
    cases p with | mk px py => simp

/-! ## Pixel buffer model

`ImageData.data` is a `Uint8ClampedArray`: stores clamp the value to
`[0, 255]` and writes to out-of-range indices are silently ignored. -/

/-- Store clamp performed by `Uint8ClampedArray` (channel values are `Nat`). -/
def uclamp (v : Nat) : Nat := min v 255

/-- `data[i] = v` on a typed array: negative or too-large indices are ignored
(`List.set` is a no-op past the end of the list). -/
def writeByte (d : List Nat) (i : Int) (v : Nat) : List Nat :=
  if 0 ≤ i then d.set i.toNat (uclamp v) else d

/-- `data[i]` read; the embedded code only reads in-range indices. -/
def readByte (d : List Nat) (i : Int) : Nat :=
  if 0 ≤ i then d.getD i.toNat 0 else 0

/-- `ImageData`: width, height and the RGBA byte buffer. -/
structure Img where
  width : Nat
  height : Nat
  data : List Nat
deriving DecidableEq, Repr

/-- Byte offset `(y * width + x) * 4` used by `getPixel`/`setPixel`. -/
def pixIdx (width : Nat) (x y : Int) : Int := (y * (width : Int) + x) * 4

/-- `BaseTool.getPixel`. -/
def getPixel (img : Img) (x y : Int) : RGBA :=
  let i := pixIdx img.width x y
  ⟨readByte img.data i, readByte img.data (i + 1),
   readByte img.data (i + 2), readByte img.data (i + 3)⟩

/-- `BaseTool.setPixel`. -/
def setPixel (img : Img) (x y : Int) (c : RGBA) : Img :=
  let i := pixIdx img.width x y
  { img with
    data := writeByte (writeByte (writeByte (writeByte img.data i c.r)
      (i + 1) c.g) (i + 2) c.b) (i + 3) c.a }

/-- Per-channel absolute difference. -/
def chDiff (a b : Nat) : Nat := max a b - min a b

/-- `colorsEqual` from `utils/color.ts`: all four channel differences within
the tolerance. -/
def colorsEqual (a b : RGBA) (tolerance : Nat) : Bool :=
  decide (chDiff a.r b.r ≤ tolerance) && decide (chDiff a.g b.g ≤ tolerance) &&
  decide (chDiff a.b b.b ≤ tolerance) && decide (chDiff a.a b.a ≤ tolerance)

/-- JavaScript `Math.round`: round half toward positive infinity. -/
def jsRound (q : ℚ) : Int := Int.floor (q + 1 / 2)

/-- `blendColors` from `utils/color.ts`; JavaScript float arithmetic is
embedded as exact rational arithmetic. -/
def blendColors (base overlay : RGBA) (opacity : ℚ) : RGBA :=
  let overlayAlpha : ℚ := (overlay.a : ℚ) / 255 * opacity
  let baseAlpha : ℚ := (base.a : ℚ) / 255
  let outAlpha : ℚ := overlayAlpha + baseAlpha * (1 - overlayAlpha)
  if outAlpha = 0 then ⟨0, 0, 0, 0⟩
  else
    ⟨(jsRound (((overlay.r : ℚ) * overlayAlpha + (base.r : ℚ) * baseAlpha * (1 - overlayAlpha)) / outAlpha)).toNat,
     (jsRound (((overlay.g : ℚ) * overlayAlpha + (base.g : ℚ) * baseAlpha * (1 - overlayAlpha)) / outAlpha)).toNat,
     (jsRound (((overlay.b : ℚ) * overlayAlpha + (base.b : ℚ) * baseAlpha * (1 - overlayAlpha)) / outAlpha)).toNat,
     (jsRound (outAlpha * 255)).toNat⟩

/-! ## Stroke bookkeeping (`BaseTool`)

The per-stroke `Map<string, Pixel>` keyed by `pixelKey(x, y) = "x,y"` is
embedded as an insertion-ordered association list keyed by the coordinate
pair itself (the string key is injective in the coordinates). -/

/-- Insertion-ordered map used for the per-stroke pixel bookkeeping. -/
abbrev PixMap : Type := List ((Int × Int) × Pixel)

/-- `Map.has`. -/
def mapHas (m : PixMap) (k : Int × Int) : Bool :=
  m.any (fun e => e.1 = k)

/-- `Map.set`: updates in place (keeping insertion order) or appends. -/
def mapSet (m : PixMap) (k : Int × Int) (v : Pixel) : PixMap :=
  if mapHas m k then m.map (fun e => if e.1 = k then (k, v) else e) else m ++ [(k, v)]

/-- `Array.from(map.values())`. -/
def mapValues (m : PixMap) : List Pixel := m.map (fun e => e.2)

/-- `ToolState` from `tools/types.ts`. -/
structure ToolState where
  isActive : Bool
  startPoint : Option Point
  currentPoint : Option Point
  previewPixels : Option (List Pixel)
  changedPixels : PixMap
  originalPixels : PixMap

/-- `createToolState`. -/
def createToolState : ToolState :=
  ⟨false, none, none, none, [], []⟩

/-- `ToolContext` fields used by the embedded tools. -/
structure ToolContext where
  layerId : String
  primaryColor : RGBA
  secondaryColor : RGBA
  brushSize : Nat
  brushOpacity : ℚ
  symmetryMode : SymmetryMode
  paintTarget : PaintTarget
  width : Int
  height : Int

/-- `BaseTool.startStroke` (the stroke also records `lastPoint`, which the
tools embedded here never read again, so it is not carried). -/
def startStroke (st : ToolState) (point : Point) : ToolState :=
  { st with
    isActive := true
    startPoint := some point
    currentPoint := some point
    changedPixels := []
    originalPixels := [] }

/-- `BaseTool.endStroke`. -/
def endStroke (st : ToolState) : ToolState :=
  { st with isActive := false }

/-- `BaseTool.paintAt`: records the original colour on first touch, blends the
colour onto the buffer and records the change (last write wins). -/
def paintAt (st : ToolState) (img : Img) (point : Point) (color : RGBA)
    (ctx : ToolContext) : ToolState × Img :=
  let key := (point.x, point.y)
  let st :=
    if mapHas st.originalPixels key then st
    else
      let originalColor := getPixel img point.x point.y
      { st with originalPixels :=
          mapSet st.originalPixels key ⟨point.x, point.y, originalColor⟩ }
  let existingColor := getPixel img point.x point.y
  let newColor := blendColors existingColor color ctx.brushOpacity
  let img := setPixel img point.x point.y newColor
  let st := { st with changedPixels := mapSet st.changedPixels key ⟨point.x, point.y, newColor⟩ }
  (st, img)

/-- `Rect` from `core/types/skin.ts`. -/
structure Rect where
  x : Int
  y : Int
  width : Int
  height : Int
deriving DecidableEq, Repr

/-- `Selection` from `core/types/skin.ts` (`type: 'rectangle'` is the only
selection type the tool produces, so the tag carries no information here). -/
structure Selection2 where
  bounds : Rect
deriving DecidableEq, Repr

/-- `ToolResult` from `tools/types.ts` (with the `selection` field the
selection tool adds to its results). -/
structure ToolResult where
  changedPixels : List Pixel
  originalPixels : List Pixel
  isComplete : Bool
  previewPixels : Option (List Pixel)
  selection : Option Selection2

/-- `BaseTool.createResult`. -/
def createResult (st : ToolState) (isComplete : Bool) : ToolResult :=
  ⟨mapValues st.changedPixels, mapValues st.originalPixels, isComplete,
    st.previewPixels, none⟩

/-! ## Selection tool (`tools/SelectionTool.ts`) -/

/-- State owned by a `SelectionTool` instance: the shared `ToolState` plus
`selectionBounds`. -/
structure SelToolState where
  state : ToolState
  selectionBounds : Option Rect

/-- `SelectionTool.calculateBounds`. -/
def calculateBounds (s e : Point) : Rect :=
  ⟨min s.x e.x, min s.y e.y, |e.x - s.x| + 1, |e.y - s.y| + 1⟩

/-- `SelectionTool.getSelectionPreview`: outline pixels of the current
bounds (top, bottom, left, right edges, in that push order). -/
def getSelectionPreview (ts : SelToolState) : List Pixel :=
  match ts.selectionBounds with
  | Option.none => []
  | some r =>
    let outlineColor : RGBA := ⟨0, 120, 255, 200⟩
    let top := (List.range r.width.toNat).map
      (fun k => Pixel.mk (r.x + k) r.y outlineColor)
    let bottom := (List.range r.width.toNat).map
      (fun k => Pixel.mk (r.x + k) (r.y + r.height - 1) outlineColor)
    let left := (List.range (r.height - 2).toNat).map
      (fun k => Pixel.mk r.x (r.y + 1 + k) outlineColor)
    let right := (List.range (r.height - 2).toNat).map
      (fun k => Pixel.mk (r.x + r.width - 1) (r.y + 1 + k) outlineColor)
    top ++ bottom ++ left ++ right

/-- `SelectionTool.onStart`.  The tool receives the context and the layer
image but performs no writes, so the image is returned unchanged. -/
def selOnStart (ts : SelToolState) (point : Point) (_ctx : ToolContext)
    (img : Img) : SelToolState × ToolResult × Img :=
  let ts := { ts with state := startStroke ts.state point }
  let ts := { ts with selectionBounds := some ⟨point.x, point.y, 0, 0⟩ }
  (ts, ⟨[], [], false, some (getSelectionPreview ts), none⟩, img)

/-- `SelectionTool.onMove`. -/
def selOnMove (ts : SelToolState) (point : Point) (_ctx : ToolContext)
    (img : Img) : SelToolState × ToolResult × Img :=
  if ¬ (ts.state.isActive = true ∧ ts.state.startPoint.isSome) then
    (ts, createResult ts.state false, img)
  else
    let startPt := ts.state.startPoint.getD point
    let ts := { ts with state := { ts.state with currentPoint := some point } }
    let ts := { ts with selectionBounds := some (calculateBounds startPt point) }
    (ts, ⟨[], [], false, some (getSelectionPreview ts), none⟩, img)

/-- `SelectionTool.onEnd`. -/
def selOnEnd (ts : SelToolState) (point : Point) (_ctx : ToolContext)
    (img : Img) : SelToolState × ToolResult × Img :=
  if ¬ (ts.state.isActive = true ∧ ts.state.startPoint.isSome) then
    let ts := { ts with state := endStroke ts.state }
    (ts, { createResult ts.state true with selection := none }, img)
  else
    let startPt := ts.state.startPoint.getD point
    let bounds := calculateBounds startPt point
    let ts := { ts with selectionBounds := some bounds }
    let selection : Option Selection2 :=
      if bounds.width > 0 ∧ bounds.height > 0 then some ⟨bounds⟩ else Option.none
    let ts := { ts with state := endStroke ts.state }
    (ts, ⟨[], [], true, some (getSelectionPreview ts), selection⟩, img)

/-- C9: releasing a drag that started at `p0` (so the tool state is active
with `startPoint = p0`) finalizes into a rectangle selection with
`x = min(p0.x, p1.x)`, `y = min(p0.y, p1.y)`, `width = |p1.x - p0.x| + 1`,
`height = |p1.y - p0.y| + 1` (both positive, so the `null` branch for a
sub-pixel selection never fires), reports no changed or original pixels,
and leaves the layer image untouched. -/
theorem C9_selection_onEnd_bounds (ts : SelToolState) (p0 p1 : Point)
    (ctx : ToolContext) (img : Img)
    (hactive : ts.state.isActive = true) (hstart : ts.state.startPoint = some p0) :
    (selOnEnd ts p1 ctx img).2.2 = img
    ∧ (selOnEnd ts p1 ctx img).2.1.selection =
        some ⟨⟨min p0.x p1.x, min p0.y p1.y, |p1.x - p0.x| + 1, |p1.y - p0.y| + 1⟩⟩
    ∧ (selOnEnd ts p1 ctx img).2.1.changedPixels = []
    ∧ (selOnEnd ts p1 ctx img).2.1.originalPixels = []
    ∧ 0 < |p1.x - p0.x| + 1 ∧ 0 < |p1.y - p0.y| + 1 := by
  have hw : (0 : Int) < |p1.x - p0.x| + 1 := by positivity
  have hh : (0 : Int) < |p1.y - p0.y| + 1 := by positivity
  simp only [selOnEnd, hactive, hstart]
  simp [calculateBounds, hw, hh]

/-- Witness for C9: a concrete drag from (3, 5) to (1, 9). -/
theorem C9_selection_onEnd_bounds_witness :
    (⟨startStroke createToolState ⟨3, 5⟩, some ⟨3, 5, 0, 0⟩⟩ : SelToolState).state.isActive = true
    ∧ ((selOnEnd ⟨startStroke createToolState ⟨3, 5⟩, some ⟨3, 5, 0, 0⟩⟩ ⟨1, 9⟩
        ⟨"l", ⟨0,0,0,0⟩, ⟨0,0,0,0⟩, 1, 1, .none, .base, 64, 64⟩ ⟨64, 64, []⟩).2.1.selection =
          some ⟨⟨1, 5, 3, 5⟩⟩) := by
  constructor
  · rfl
  · have h := C9_selection_onEnd_bounds ⟨startStroke createToolState ⟨3, 5⟩, some ⟨3, 5, 0, 0⟩⟩
      ⟨3, 5⟩ ⟨1, 9⟩ ⟨"l", ⟨0,0,0,0⟩, ⟨0,0,0,0⟩, 1, 1, .none, .base, 64, 64⟩ ⟨64, 64, []⟩ rfl rfl
    rw [h.2.1]
    decide

/-! ## Synchronization manager (`SynchronizationManager.ts`) -/

/-- View source tag carried by `viewport-change` events. -/
inductive ViewSource where
  | view2d
  | view3d
deriving DecidableEq, Repr

/-- `SyncEvent` union from `sync/types.ts`. -/
inductive SyncEvent where
  | pixelChange (pixels : List Pixel)
  | layerChange (layerId : String)
  | fullUpdate
  | selectionChange (selection : Option Selection2)
  | viewportChange (source : ViewSource)
deriving DecidableEq, Repr

/-- `e.type === 'full-update'`. -/
def isFullUpdate : SyncEvent → Bool
  | .fullUpdate => true
  | _ => false

/-- `e.type === 'pixel-change'`. -/
def isPixelChange : SyncEvent → Bool
  | .pixelChange _ => true
  | _ => false

/-- `e.type === 'selection-change'`. -/
def isSelectionChange : SyncEvent → Bool
  | .selectionChange _ => true
  | _ => false

/-- `e.type === 'viewport-change'`. -/
def isViewportChange : SyncEvent → Bool
  | .viewportChange _ => true
  | _ => false

/-- Pixel payload of a `pixel-change` event. -/
def eventPixels : SyncEvent → List Pixel
  | .pixelChange ps => ps
  | _ => []

/-- `SynchronizationManager.coalesceEvents`. -/
def coalesceEvents (events : List SyncEvent) : List SyncEvent :=
  let hasFullUpdate := events.any isFullUpdate
  if hasFullUpdate then
    events.filter (fun e => isFullUpdate e || isSelectionChange e || isViewportChange e)
  else
    let pixelEvents := events.filter isPixelChange
    if pixelEvents.length > 1 then
      let mergedPixels := pixelEvents.flatMap eventPixels
      SyncEvent.pixelChange mergedPixels :: events.filter (fun e => ! isPixelChange e)
    else
      events

/-- C6: at flush time, if any queued event is a full-update the coalesced
list is exactly the queued full-update / selection-change / viewport-change
events (and so contains no pixel-change event); otherwise, when more than one
pixel-change event is queued, the result is a single pixel-change event whose
pixel list is the concatenation of all queued pixel lists, placed before
every other queued event. -/
theorem C6_coalesceEvents_spec (events : List SyncEvent) :
    (events.any isFullUpdate = true →
      coalesceEvents events =
        events.filter (fun e => isFullUpdate e || isSelectionChange e || isViewportChange e)
      ∧ ∀ e ∈ coalesceEvents events, isPixelChange e = false)
    ∧ (events.any isFullUpdate = false →
        (events.filter isPixelChange).length > 1 →
      coalesceEvents events =
        SyncEvent.pixelChange ((events.filter isPixelChange).flatMap eventPixels)
          :: events.filter (fun e => ! isPixelChange e)) := by
  constructor
  · intro hfull
    have heq : coalesceEvents events =
        events.filter (fun e => isFullUpdate e || isSelectionChange e || isViewportChange e) := by
      simp [coalesceEvents, hfull]
    refine ⟨heq, ?_⟩
    intro e he
    rw [heq] at he
    have := List.of_mem_filter he
    cases e <;> simp_all [isFullUpdate, isSelectionChange, isViewportChange, isPixelChange]
  · intro hfull hlen
    simp [coalesceEvents, hfull, hlen]

/-- Witness for C6: three pixel-change events and a full-update queued in one
frame coalesce to just the full-update; without the full-update the three
pixel lists are concatenated into a single leading pixel-change event. -/
theorem C6_coalesceEvents_spec_witness :
    (coalesceEvents [.pixelChange [⟨1, 1, ⟨9, 9, 9, 255⟩⟩], .pixelChange [],
        .pixelChange [⟨2, 2, ⟨0, 0, 0, 0⟩⟩], .fullUpdate] = [SyncEvent.fullUpdate])
    ∧ (coalesceEvents [.pixelChange [⟨1, 1, ⟨9, 9, 9, 255⟩⟩], .viewportChange .view2d,
        .pixelChange [⟨2, 2, ⟨0, 0, 0, 0⟩⟩]] =
      [.pixelChange [⟨1, 1, ⟨9, 9, 9, 255⟩⟩, ⟨2, 2, ⟨0, 0, 0, 0⟩⟩], .viewportChange .view2d]) := by
  constructor
  · have h := (C6_coalesceEvents_spec [.pixelChange [⟨1, 1, ⟨9, 9, 9, 255⟩⟩], .pixelChange [],
        .pixelChange [⟨2, 2, ⟨0, 0, 0, 0⟩⟩], .fullUpdate]).1 (by decide)
    rw [h.1]
    decide
  · have h := (C6_coalesceEvents_spec [.pixelChange [⟨1, 1, ⟨9, 9, 9, 255⟩⟩],
        .viewportChange .view2d, .pixelChange [⟨2, 2, ⟨0, 0, 0, 0⟩⟩]]).2 (by decide) (by decide)
    rw [h]
    decide

/-! ## Documents, commands and the history manager
(`core/types`, `utils/Command.ts`, `history/HistoryManager.ts`) -/

/-- `Layer`: its id and its `ImageData` (the fields the embedded commands
read or write). -/
structure Layer where
  id : String
  imageData : Img
deriving DecidableEq, Repr

/-- `SkinDocument`: the ordered layer list. -/
structure SkinDocument where
  layers : List Layer
deriving DecidableEq, Repr

/-- One byte-level pixel store of `DrawCommand.execute`/`undo` (four writes
at stride offset `(y * width + x) * 4`), identical to `BaseTool.setPixel`. -/
def writePixel (img : Img) (p : Pixel) : Img :=
  setPixel img p.x p.y p.color

/-- Write a pixel list in order (last write wins). -/
def writePixels (img : Img) (ps : List Pixel) : Img :=
  ps.foldl writePixel img

/-- `document.layers.find(l => l.id === layerId)` followed by an in-place
update of that layer's buffer: rewrites the first layer with a matching id
and leaves every other layer untouched (no-op when the id is absent). -/
def updateFirstLayer (layers : List Layer) (layerId : String) (f : Img → Img) : List Layer :=
  match layers with
  | [] => []
  | l :: ls =>
    if l.id = layerId then { l with imageData := f l.imageData } :: ls
    else l :: updateFirstLayer ls layerId f

/-- `Array.prototype.splice(i, 0, a)` insertion: JavaScript clamps the index
into `[0, length]` (negative indices count from the end). -/
def spliceInsert {α : Type} (l : List α) (i : Int) (a : α) : List α :=
  let n : Int := if i < 0 then max 0 ((l.length : Int) + i) else min i (l.length : Int)
  l.insertIdx n.toNat a

/-- The command objects the claims are about: `DrawCommand` (pixel diff) and
`DeleteLayerCommand` (stateful snapshot: `deletedLayer`, `deletedIndex`),
from `utils/Command.ts`. -/
inductive Command where
  | draw (layerId : String) (originalPixels newPixels : List Pixel)
  | deleteLayer (layerId : String) (deletedLayer : Option Layer) (deletedIndex : Int)
deriving DecidableEq, Repr

/-- `command.execute(document)`.  `DeleteLayerCommand.execute` also mutates
the command's own fields, so the (possibly updated) command is returned. -/
def commandExecute : Command → SkinDocument → SkinDocument × Command
  | .draw lid orig newPx, doc =>
    (⟨updateFirstLayer doc.layers lid (fun img => writePixels img newPx)⟩,
      .draw lid orig newPx)
  | .deleteLayer lid dl _, doc =>
    match doc.layers.findIdx? (fun l => l.id = lid) with
    | Option.none => (doc, .deleteLayer lid dl (-1))
    | some i => (⟨doc.layers.eraseIdx i⟩, .deleteLayer lid doc.layers[i]? (i : Int))

/-- `command.undo(document)` (no command field is mutated by `undo`). -/
def commandUndo : Command → SkinDocument → SkinDocument
  | .draw lid orig _, doc =>
    ⟨updateFirstLayer doc.layers lid (fun img => writePixels img orig)⟩
  | .deleteLayer _ dl di, doc =>
    match dl with
    | some l => if di ≠ -1 then ⟨spliceInsert doc.layers di l⟩ else doc
    | Option.none => doc

/-- `command.getMemorySize()`. -/
def commandSize : Command → Nat
  | .draw _ orig newPx => (orig.length + newPx.length) * 12
  | .deleteLayer _ dl _ =>
    match dl with
    | some l => l.imageData.data.length + 200
    | Option.none => 100

/-- Aggregate `getMemorySize` over a stack. -/
def sumSizes (l : List Command) : Int :=
  (l.map (fun c => (commandSize c : Int))).sum

/-- `HistoryManager` state: the two stacks (bottom of the stack at the head
of the list, push/pop at the tail, matching the TS arrays), the ceiling and
the running memory counter. -/
structure HistoryManager where
  undoStack : List Command
  redoStack : List Command
  maxMemory : Int
  currentMemory : Int
deriving DecidableEq, Repr

/-- `new HistoryManager({maxMemory})`. -/
def newHistoryManager (maxMemory : Int) : HistoryManager :=
  ⟨[], [], maxMemory, 0⟩

/-- The `while` loop of `HistoryManager.pruneHistory`: evict the stack-bottom
entry while the memory exceeds the ceiling and more than one entry remains. -/
def pruneLoop : List Command → Int → Int → List Command × Int
  | [], mem, _ => ([], mem)
  | [c], mem, _ => ([c], mem)
  | c :: c₂ :: rest, mem, maxMem =>
    if mem > maxMem then pruneLoop (c₂ :: rest) (mem - commandSize c) maxMem
    else (c :: c₂ :: rest, mem)

/-- `HistoryManager.execute`. -/
def hmExecute (hm : HistoryManager) (command : Command) (doc : SkinDocument) :
    HistoryManager × SkinDocument :=
  let r := commandExecute command doc
  let mem := hm.currentMemory - sumSizes hm.redoStack
  let undoStack := hm.undoStack ++ [r.2]
  let mem := mem + commandSize r.2
  let pr := pruneLoop undoStack mem hm.maxMemory
  ({ hm with undoStack := pr.1, redoStack := [], currentMemory := pr.2 }, r.1)

/-- `HistoryManager.undo`. -/
def hmUndo (hm : HistoryManager) (doc : SkinDocument) :
    HistoryManager × SkinDocument × Bool :=
  match hm.undoStack.getLast? with
  | Option.none => (hm, doc, false)
  | some command =>
    let hm2 : HistoryManager :=
      { hm with
        undoStack := hm.undoStack.dropLast
        redoStack := hm.redoStack ++ [command] }
    (hm2, commandUndo command doc, true)

/-- `HistoryManager.redo`. -/
def hmRedo (hm : HistoryManager) (doc : SkinDocument) :
    HistoryManager × SkinDocument × Bool :=
  match hm.redoStack.getLast? with
  | Option.none => (hm, doc, false)
  | some command =>
    let r := commandExecute command doc
    let hm2 : HistoryManager :=
      { hm with
        redoStack := hm.redoStack.dropLast
        undoStack := hm.undoStack ++ [r.2] }
    (hm2, r.1, true)

/-- `HistoryManager.clear`. -/
def hmClear (hm : HistoryManager) : HistoryManager :=
  { hm with undoStack := [], redoStack := [], currentMemory := 0 }

/-- `HistoryManager.getMemoryUsage`. -/
def getMemoryUsage (hm : HistoryManager) : Int :=
  hm.currentMemory

/-- C2: executing any new command empties the redo stack, so a subsequent
`redo` call returns `false` and leaves the document (and the manager)
unchanged — in particular also when `execute` runs after `undo` calls,
since the starting manager state is arbitrary here. -/
theorem C2_execute_clears_redo (hm : HistoryManager) (command : Command)
    (doc doc₂ : SkinDocument) :
    (hmExecute hm command doc).1.redoStack = []
    ∧ hmRedo (hmExecute hm command doc).1 doc₂ =
        ((hmExecute hm command doc).1, doc₂, false) := by
  constructor
  · rfl
  · have h : (hmExecute hm command doc).1.redoStack = [] := rfl
    simp [hmRedo, h]

/-- The prune loop only ever evicts from the bottom of the stack: the
resulting stack is a `drop` of the input, and at least one entry survives. -/
theorem pruneLoop_drop (l : List Command) (mem maxMem : Int) :
    ∃ k, (pruneLoop l mem maxMem).1 = l.drop k ∧ (l ≠ [] → k < l.length) := by
  induction l, mem, maxMem using pruneLoop.induct with
  | case1 mem maxMem => exact ⟨0, rfl, by simp⟩
  | case2 c mem maxMem => exact ⟨0, rfl, by simp [pruneLoop]⟩
  | case3 c c₂ rest mem maxMem hgt ih =>
    obtain ⟨k, hk, hlt⟩ := ih
    refine ⟨k + 1, ?_, ?_⟩
    · simpa [pruneLoop, hgt] using hk
    · intro _
      have := hlt (by simp)
      simp at this ⊢
      omega
  | case4 c c₂ rest mem maxMem hle =>
    exact ⟨0, by simp [pruneLoop, hle], by simp⟩

/-- The prune loop never changes the top of the stack. -/
theorem pruneLoop_getLast (l : List Command) (mem maxMem : Int) (h : l ≠ []) :
    (pruneLoop l mem maxMem).1.getLast? = l.getLast? := by
  induction l, mem, maxMem using pruneLoop.induct with
  | case1 mem maxMem => rfl
  | case2 c mem maxMem => rfl
  | case3 c c₂ rest mem maxMem hgt ih =>
    have := ih (by simp)
    simp only [pruneLoop, if_pos hgt]
    rw [this]
    simp [List.getLast?_cons_cons]
  | case4 c c₂ rest mem maxMem hle =>
    simp [pruneLoop, hle]

/-- Postcondition of the prune `while` loop: it stops only once the memory
is within the ceiling or a single entry remains. -/
theorem pruneLoop_post (l : List Command) (mem maxMem : Int) :
    ¬ ((pruneLoop l mem maxMem).2 > maxMem ∧ 1 < (pruneLoop l mem maxMem).1.length) := by
  induction l, mem, maxMem using pruneLoop.induct with
  | case1 mem maxMem => simp [pruneLoop]
  | case2 c mem maxMem => simp [pruneLoop]
  | case3 c c₂ rest mem maxMem hgt ih => simpa [pruneLoop, hgt] using ih
  | case4 c c₂ rest mem maxMem hle =>
    simp only [pruneLoop, if_neg hle]
    intro h
    exact hle h.1

/-- The prune loop subtracts exactly the sizes of the evicted commands. -/
theorem pruneLoop_mem_sum (l : List Command) (mem maxMem : Int) :
    (pruneLoop l mem maxMem).2 - sumSizes (pruneLoop l mem maxMem).1 = mem - sumSizes l := by
  induction l, mem, maxMem using pruneLoop.induct with
  | case1 mem maxMem => rfl
  | case2 c mem maxMem => rfl
  | case3 c c₂ rest mem maxMem hgt ih =>
    simp only [pruneLoop, if_pos hgt] at *
    rw [ih]
    simp [sumSizes]
    ring
  | case4 c c₂ rest mem maxMem hle => simp [pruneLoop, hle]

/-- Step-wise characterization of the prune `while` loop: the `k` evicted
entries are exactly a stack-bottom prefix, the memory drops by their sizes,
and each eviction happened only while the memory at that step exceeded the
ceiling and more than one entry remained. -/
theorem pruneLoop_steps (l : List Command) (mem maxMem : Int) :
    ∃ k, (pruneLoop l mem maxMem).1 = l.drop k
      ∧ (l ≠ [] → k < l.length)
      ∧ (pruneLoop l mem maxMem).2 = mem - sumSizes (l.take k)
      ∧ ∀ j, j < k → mem - sumSizes (l.take j) > maxMem ∧ j + 1 < l.length := by
  induction l, mem, maxMem using pruneLoop.induct with
  | case1 mem maxMem =>
    refine ⟨0, rfl, by simp, by simp [pruneLoop, sumSizes], ?_⟩
    intro j hj
    omega
  | case2 c mem maxMem =>
    refine ⟨0, rfl, by simp, by simp [pruneLoop, sumSizes], ?_⟩
    intro j hj
    omega
  | case3 c c₂ rest mem maxMem hgt ih =>
    obtain ⟨k, hk1, hk2, hk3, hk4⟩ := ih
    refine ⟨k + 1, ?_, ?_, ?_, ?_⟩
    · simp only [pruneLoop, if_pos hgt]
      simpa using hk1
    · intro _
      have := hk2 (by simp)
      simp at this ⊢
      omega
    · simp only [pruneLoop, if_pos hgt]
      rw [hk3, List.take_succ_cons]
      have hsc : sumSizes (c :: List.take k (c₂ :: rest))
          = (commandSize c : Int) + sumSizes (List.take k (c₂ :: rest)) := by
        simp [sumSizes]
      omega
    · intro j hj
      cases j with
      | zero =>
        constructor
        · simpa [sumSizes] using hgt
        · simp
      | succ j' =>
        obtain ⟨h1, h2⟩ := hk4 j' (by omega)
        constructor
        · rw [List.take_succ_cons]
          have hsc : sumSizes (c :: List.take j' (c₂ :: rest))
              = (commandSize c : Int) + sumSizes (List.take j' (c₂ :: rest)) := by
            simp [sumSizes]
          omega
        · simp at h2 ⊢
          omega
  | case4 c c₂ rest mem maxMem hle =>
    refine ⟨0, by simp [pruneLoop, hle], by simp, by simp [pruneLoop, hle, sumSizes], ?_⟩
    intro j hj
    omega

/-- C5: pruning only evicts from the stack bottom, and evicts the `j`-th
oldest entry only while the memory at that step still exceeded the ceiling
and more than one entry remained — in particular nothing is evicted once the
memory fits; immediately after any `execute` the undo stack still ends with
the just-executed command, is non-empty, and an `undo` call succeeds — the
most recent command always stays undoable. -/
theorem C5_prune_keeps_most_recent (hm : HistoryManager) (command : Command)
    (doc doc₂ : SkinDocument) :
    (∃ k, (hmExecute hm command doc).1.undoStack =
        (hm.undoStack ++ [(commandExecute command doc).2]).drop k
      ∧ k < hm.undoStack.length + 1
      ∧ (hmExecute hm command doc).1.currentMemory =
          hm.currentMemory - sumSizes hm.redoStack
            + commandSize (commandExecute command doc).2
            - sumSizes ((hm.undoStack ++ [(commandExecute command doc).2]).take k)
      ∧ ∀ j, j < k →
          (hm.currentMemory - sumSizes hm.redoStack
              + commandSize (commandExecute command doc).2
              - sumSizes ((hm.undoStack ++ [(commandExecute command doc).2]).take j)
            > hm.maxMemory)
          ∧ j + 1 < hm.undoStack.length + 1)
    ∧ (hmExecute hm command doc).1.undoStack ≠ []
    ∧ (hmExecute hm command doc).1.undoStack.getLast? = some (commandExecute command doc).2
    ∧ ¬ ((hmExecute hm command doc).1.currentMemory > hm.maxMemory
        ∧ 1 < (hmExecute hm command doc).1.undoStack.length)
    ∧ (hmUndo (hmExecute hm command doc).1 doc₂).2.2 = true := by
  have hne : hm.undoStack ++ [(commandExecute command doc).2] ≠ [] := by simp
  have hsteps := pruneLoop_steps (hm.undoStack ++ [(commandExecute command doc).2])
    (hm.currentMemory - sumSizes hm.redoStack + commandSize (commandExecute command doc).2)
    hm.maxMemory
  have hlast := pruneLoop_getLast (hm.undoStack ++ [(commandExecute command doc).2])
    (hm.currentMemory - sumSizes hm.redoStack + commandSize (commandExecute command doc).2)
    hm.maxMemory hne
  have hpost := pruneLoop_post (hm.undoStack ++ [(commandExecute command doc).2])
    (hm.currentMemory - sumSizes hm.redoStack + commandSize (commandExecute command doc).2)
    hm.maxMemory
  have hstack : (hmExecute hm command doc).1.undoStack =
      (pruneLoop (hm.undoStack ++ [(commandExecute command doc).2])
        (hm.currentMemory - sumSizes hm.redoStack + commandSize (commandExecute command doc).2)
        hm.maxMemory).1 := rfl
  have hmem : (hmExecute hm command doc).1.currentMemory =
      (pruneLoop (hm.undoStack ++ [(commandExecute command doc).2])
        (hm.currentMemory - sumSizes hm.redoStack + commandSize (commandExecute command doc).2)
        hm.maxMemory).2 := rfl
  have hlast' : (hmExecute hm command doc).1.undoStack.getLast? =
      some (commandExecute command doc).2 := by
    rw [hstack, hlast, List.getLast?_concat]
  have hne' : (hmExecute hm command doc).1.undoStack ≠ [] := by
    intro h0
    rw [h0] at hlast'
    exact Option.noConfusion hlast'
  obtain ⟨k, hk1, hk2, hk3, hk4⟩ := hsteps
  refine ⟨⟨k, ?_, ?_, ?_, ?_⟩, hne', hlast', ?_, ?_⟩
  · rw [hstack, hk1]
  · have := hk2 hne
    simpa using this
  · rw [hmem, hk3]
  · intro j hj
    obtain ⟨h1, h2⟩ := hk4 j hj
    refine ⟨h1, ?_⟩
    simpa using h2
  · rw [hstack, hmem] at *
    exact hpost
  · simp only [hmUndo, hlast']

/-! ## Memory accounting invariant machinery

`DeleteLayerCommand.getMemorySize` depends on the captured layer snapshot,
so the accounting invariant tracks the layer-list *shape* (ids and buffer
byte lengths) that `execute`, `undo` and `getMemorySize` depend on. -/

/-- Layer-list shape: id and buffer byte length of each layer. -/
abbrev SD : Type := List (String × Nat)

/-- Shape of a layer list. -/
def structOfL (ls : List Layer) : SD :=
  ls.map (fun l => (l.id, l.imageData.data.length))

/-- Shape of a document. -/
def structOf (doc : SkinDocument) : SD :=
  structOfL doc.layers

theorem length_writeByte (d : List Nat) (i : Int) (v : Nat) :
    (writeByte d i v).length = d.length := by
  unfold writeByte
  split <;> simp

theorem shape_setPixel (img : Img) (x y : Int) (c : RGBA) :
    (setPixel img x y c).width = img.width ∧ (setPixel img x y c).height = img.height
    ∧ (setPixel img x y c).data.length = img.data.length := by
  simp [setPixel, length_writeByte]

theorem shape_writePixels (ps : List Pixel) (img : Img) :
    (writePixels img ps).width = img.width ∧ (writePixels img ps).height = img.height
    ∧ (writePixels img ps).data.length = img.data.length := by
  induction ps generalizing img with
  | nil => exact ⟨rfl, rfl, rfl⟩
  | cons p ps ih =>
    have h1 := shape_setPixel img p.x p.y p.color
    have h2 := ih (writePixel img p)
    simp only [writePixels, List.foldl_cons] at *
    exact ⟨h2.1.trans h1.1, h2.2.1.trans h1.2.1, h2.2.2.trans h1.2.2⟩

theorem structOfL_updateFirstLayer (ls : List Layer) (lid : String) (f : Img → Img)
    (hf : ∀ img, (f img).data.length = img.data.length) :
    structOfL (updateFirstLayer ls lid f) = structOfL ls := by
  induction ls with
  | nil => rfl
  | cons l ls ih =>
    by_cases h : l.id = lid
    · simp [updateFirstLayer, h, structOfL, hf]
    · simp [updateFirstLayer, h, structOfL] at ih ⊢
      exact ih

theorem map_eraseIdx' {α β : Type} (f : α → β) (l : List α) (i : Nat) :
    (l.eraseIdx i).map f = (l.map f).eraseIdx i := by
  induction l generalizing i with
  | nil => rfl
  | cons a l ih =>
    cases i with
    | zero => rfl
    | succ j => simp [List.eraseIdx, ih]

theorem map_insertIdx' {α β : Type} (f : α → β) (l : List α) (i : Nat) (a : α) :
    (l.insertIdx i a).map f = (l.map f).insertIdx i (f a) := by
  induction l generalizing i with
  | nil => cases i <;> rfl
  | cons b l ih =>
    cases i with
    | zero => rfl
    | succ j => simp [List.insertIdx_succ_cons, ih]

theorem insertIdx_eraseIdx_self {α : Type} (l : List α) (i : Nat) (a : α)
    (h : l[i]? = some a) : (l.eraseIdx i).insertIdx i a = l := by
  induction l generalizing i with
  | nil => simp at h
  | cons b l ih =>
    cases i with
    | zero => simp_all
    | succ j =>
      simp only [List.getElem?_cons_succ] at h
      simp [List.eraseIdx, List.insertIdx_succ_cons, ih j h]

/-- Shape transition of `command.execute`. -/
def sexecStruct (c : Command) (s : SD) : SD :=
  match c with
  | .draw _ _ _ => s
  | .deleteLayer lid _ _ =>
    match s.findIdx? (fun e => e.1 = lid) with
    | Option.none => s
    | some i => s.eraseIdx i

/-- `getMemorySize` of the command as it will be after `execute` runs on a
document of the given shape. -/
def sexecSize (c : Command) (s : SD) : Nat :=
  match c with
  | .draw _ o n => (o.length + n.length) * 12
  | .deleteLayer lid dl di =>
    match s.findIdx? (fun e => e.1 = lid) with
    | Option.none => commandSize (.deleteLayer lid dl di)
    | some i =>
      match s[i]? with
      | some e => e.2 + 200
      | Option.none => commandSize (.deleteLayer lid dl di)

/-- Shape transition of `command.undo`. -/
def sundoStruct (c : Command) (s : SD) : SD :=
  match c with
  | .draw _ _ _ => s
  | .deleteLayer _ dl di =>
    match dl with
    | some l => if di ≠ -1 then spliceInsert s di (l.id, l.imageData.data.length) else s
    | Option.none => s

theorem structOf_commandExecute (c : Command) (d : SkinDocument) :
    structOf (commandExecute c d).1 = sexecStruct c (structOf d) := by
  cases c with
  | draw lid orig newPx =>
    simp only [commandExecute, sexecStruct, structOf]
    exact structOfL_updateFirstLayer d.layers lid _
      (fun img => (shape_writePixels newPx img).2.2)
  | deleteLayer lid dl di =>
    have hmap : (structOf d).findIdx? (fun e => e.1 = lid) =
        d.layers.findIdx? (fun l => l.id = lid) := by
      simp [structOf, structOfL, List.findIdx?_map]
      rfl
    simp only [commandExecute, sexecStruct, hmap]
    cases hfind : d.layers.findIdx? (fun l => l.id = lid) with
    | none => rfl
    | some i =>
      simp only [structOf, structOfL]
      exact map_eraseIdx' _ d.layers i

theorem size_commandExecute (c : Command) (d : SkinDocument) :
    commandSize (commandExecute c d).2 = sexecSize c (structOf d) := by
  cases c with
  | draw lid orig newPx => rfl
  | deleteLayer lid dl di =>
    have hmap : (structOf d).findIdx? (fun e => e.1 = lid) =
        d.layers.findIdx? (fun l => l.id = lid) := by
      simp [structOf, structOfL, List.findIdx?_map]
      rfl
    simp only [commandExecute, sexecSize, hmap]
    cases hfind : d.layers.findIdx? (fun l => l.id = lid) with
    | none => rfl
    | some i =>
      have hi : i < d.layers.length := (List.findIdx?_eq_some_iff_getElem.mp hfind).1
      have hgm : (structOf d)[i]? = some (d.layers[i].id, d.layers[i].imageData.data.length) := by
        simp [structOf, structOfL, List.getElem?_map, List.getElem?_eq_getElem hi]
      simp [hgm, commandSize, List.getElem?_eq_getElem hi]

theorem structOf_commandUndo (c : Command) (d : SkinDocument) :
    structOf (commandUndo c d) = sundoStruct c (structOf d) := by
  cases c with
  | draw lid orig newPx =>
    simp only [commandUndo, sundoStruct, structOf]
    exact structOfL_updateFirstLayer d.layers lid _
      (fun img => (shape_writePixels orig img).2.2)
  | deleteLayer lid dl di =>
    cases dl with
    | none => rfl
    | some l =>
      simp only [commandUndo, sundoStruct]
      by_cases hdi : di ≠ -1
      · simp only [if_pos hdi]
        simp only [structOf, structOfL, spliceInsert, List.length_map]
        exact map_insertIdx' _ d.layers _ l
      · simp [hdi]

/-- A command that has just been executed on a document: its `undo` restores
the document shape it ran on, re-executing restores the post-execute shape,
and the re-capture leaves its `getMemorySize` unchanged. -/
theorem reexec_ok (c : Command) (d : SkinDocument) :
    sundoStruct (commandExecute c d).2 (structOf (commandExecute c d).1) = structOf d
    ∧ sexecStruct (commandExecute c d).2 (structOf d) = structOf (commandExecute c d).1
    ∧ sexecSize (commandExecute c d).2 (structOf d) = commandSize (commandExecute c d).2 := by
  cases c with
  | draw lid orig newPx =>
    have hs := structOf_commandExecute (.draw lid orig newPx) d
    simp only [sexecStruct] at hs
    exact ⟨hs, hs.symm, rfl⟩
  | deleteLayer lid dl di =>
    have hmap : (structOf d).findIdx? (fun e => e.1 = lid) =
        d.layers.findIdx? (fun l => l.id = lid) := by
      simp [structOf, structOfL, List.findIdx?_map]
      rfl
    cases hfind : d.layers.findIdx? (fun l => l.id = lid) with
    | none =>
      have hmap' : (structOf d).findIdx? (fun e => e.1 = lid) = Option.none :=
        hmap.trans hfind
      refine ⟨?_, ?_, ?_⟩
      · simp only [commandExecute, hfind]
        cases dl <;> simp [sundoStruct]
      · simp [commandExecute, hfind, sexecStruct, hmap']
      · simp only [commandExecute, hfind, sexecSize, hmap']
    | some i =>
      have hex := List.findIdx?_eq_some_iff_getElem.mp hfind
      obtain ⟨hi, hpi, -⟩ := hex
      have hgi : d.layers[i]? = some d.layers[i] := List.getElem?_eq_getElem hi
      have hsi : (structOf d)[i]? =
          some (d.layers[i].id, d.layers[i].imageData.data.length) := by
        simp [structOf, structOfL, List.getElem?_map, hgi]
      have hmap' : (structOf d).findIdx? (fun e => e.1 = lid) = some i := hmap.trans hfind
      have hslen : (structOf d).length = d.layers.length := by
        simp [structOf, structOfL]
      have hid : d.layers[i].id = lid := by simpa using hpi
      have hserase : structOf (commandExecute (.deleteLayer lid dl di) d).1 =
          (structOf d).eraseIdx i := by
        simp only [commandExecute, hfind, structOf, structOfL]
        exact map_eraseIdx' _ d.layers i
      have hilt : i < (structOf d).length := by omega
      refine ⟨?_, ?_, ?_⟩
      · rw [hserase]
        simp only [commandExecute, hfind]
        rw [hgi]
        simp only [sundoStruct]
        rw [if_pos (by omega : ¬ ((i : Int) = -1))]
        have hlen' : ((structOf d).eraseIdx i).length = (structOf d).length - 1 := by
          rw [List.length_eraseIdx]
          simp [hilt]
        simp only [spliceInsert]
        have hn : (if (i : Int) < 0 then
              max 0 ((((structOf d).eraseIdx i).length : Int) + (i : Int))
            else min (i : Int) (((structOf d).eraseIdx i).length : Int)) = (i : Int) := by
          rw [if_neg (by omega), hlen']
          omega
        rw [hn]
        simp only [Int.toNat_natCast]
        exact insertIdx_eraseIdx_self _ i _ hsi
      · rw [hserase]
        simp only [commandExecute, hfind, sexecStruct, hmap']
      · simp only [commandExecute, hfind, sexecSize, hmap', hsi]
        rw [hgi]
        simp [commandSize]

/-- Size stability of the redo stack in pop order (most recently undone
command first) relative to the current document shape: re-executing each
stacked command re-captures its recorded memory size. -/
def RedoOKr : List Command → SD → Prop
  | [], _ => True
  | c :: rest, s => sexecSize c s = commandSize c ∧ RedoOKr rest (sexecStruct c s)

/-- Roundtrip stability of the undo stack in pop order (most recent command
first): undoing restores the shape the command executed on, and re-executing
re-captures its recorded memory size. -/
def UndoOKr : List Command → SD → Prop
  | [], _ => True
  | c :: rest, s =>
    sexecStruct c (sundoStruct c s) = s
    ∧ sexecSize c (sundoStruct c s) = commandSize c
    ∧ UndoOKr rest (sundoStruct c s)

theorem undoOKr_take (l : List Command) (s : SD) (h : UndoOKr l s) (m : Nat) :
    UndoOKr (l.take m) s := by
  induction l generalizing s m with
  | nil => simpa using h
  | cons c rest ih =>
    cases m with
    | zero => trivial
    | succ m' => exact ⟨h.1, h.2.1, ih _ h.2.2 m'⟩

theorem sumSizes_append (a b : List Command) :
    sumSizes (a ++ b) = sumSizes a + sumSizes b := by
  simp [sumSizes]

/-- The bookkeeping invariant of a history manager: the running memory
counter equals the aggregate `getMemorySize` of both stacks, and both stacks
are replay-stable against the current document. -/
def HistInv (hm : HistoryManager) (doc : SkinDocument) : Prop :=
  hm.currentMemory = sumSizes hm.undoStack + sumSizes hm.redoStack
  ∧ UndoOKr hm.undoStack.reverse (structOf doc)
  ∧ RedoOKr hm.redoStack.reverse (structOf doc)

theorem histInv_new (maxMemory : Int) (doc : SkinDocument) :
    HistInv (newHistoryManager maxMemory) doc := by
  refine ⟨rfl, ?_, ?_⟩ <;> trivial

theorem histInv_execute (hm : HistoryManager) (c : Command) (doc : SkinDocument)
    (h : HistInv hm doc) :
    HistInv (hmExecute hm c doc).1 (hmExecute hm c doc).2 := by
  obtain ⟨hmem, hundo, -⟩ := h
  obtain ⟨hre1, hre2, hre3⟩ := reexec_ok c doc
  have hdrop := pruneLoop_drop (hm.undoStack ++ [(commandExecute c doc).2])
    (hm.currentMemory - sumSizes hm.redoStack + commandSize (commandExecute c doc).2)
    hm.maxMemory
  have hsum := pruneLoop_mem_sum (hm.undoStack ++ [(commandExecute c doc).2])
    (hm.currentMemory - sumSizes hm.redoStack + commandSize (commandExecute c doc).2)
    hm.maxMemory
  obtain ⟨k, hk, -⟩ := hdrop
  have hstack : (hmExecute hm c doc).1.undoStack =
      (hm.undoStack ++ [(commandExecute c doc).2]).drop k := by
    rw [← hk]; rfl
  have hmem' : (hmExecute hm c doc).1.currentMemory =
      (pruneLoop (hm.undoStack ++ [(commandExecute c doc).2])
        (hm.currentMemory - sumSizes hm.redoStack + commandSize (commandExecute c doc).2)
        hm.maxMemory).2 := rfl
  have hdoc : (hmExecute hm c doc).2 = (commandExecute c doc).1 := rfl
  refine ⟨?_, ?_, ?_⟩
  · rw [hmem', hstack]
    have h2 : (pruneLoop (hm.undoStack ++ [(commandExecute c doc).2])
        (hm.currentMemory - sumSizes hm.redoStack + commandSize (commandExecute c doc).2)
        hm.maxMemory).1 = (hm.undoStack ++ [(commandExecute c doc).2]).drop k := hk
    rw [h2] at hsum
    have : (hmExecute hm c doc).1.redoStack = [] := rfl
    rw [this]
    have hz : sumSizes [] = 0 := rfl
    rw [hz]
    rw [sumSizes_append] at hsum
    have hone : sumSizes [(commandExecute c doc).2] =
        (commandSize (commandExecute c doc).2 : Int) := by
      simp [sumSizes]
    rw [hone] at hsum
    omega
  · rw [hstack, hdoc, List.reverse_drop]
    apply undoOKr_take
    rw [List.reverse_append]
    simp only [List.reverse_cons, List.reverse_nil, List.nil_append, List.singleton_append]
    refine ⟨?_, ?_, ?_⟩
    · rw [hre1, hre2]
    · rw [hre1, hre3]
    · rw [hre1]
      exact hundo
  · trivial

theorem histInv_undo (hm : HistoryManager) (doc : SkinDocument)
    (h : HistInv hm doc) :
    HistInv (hmUndo hm doc).1 (hmUndo hm doc).2.1 := by
  obtain ⟨hmem, hundo, hredo⟩ := h
  cases hlast : hm.undoStack.getLast? with
  | none =>
    have h1 : (hmUndo hm doc).1 = hm := by simp [hmUndo, hlast]
    have h2 : (hmUndo hm doc).2.1 = doc := by simp [hmUndo, hlast]
    rw [h1, h2]
    exact ⟨hmem, hundo, hredo⟩
  | some c =>
    have hne : hm.undoStack ≠ [] := by
      intro h0
      rw [h0] at hlast
      exact Option.noConfusion hlast
    have heq : hm.undoStack = hm.undoStack.dropLast ++ [c] := by
      have := List.dropLast_append_getLast hne
      rw [List.getLast?_eq_getLast _ hne] at hlast
      injection hlast with hc
      rw [hc] at this
      exact this.symm
    have hrev : hm.undoStack.reverse = c :: hm.undoStack.dropLast.reverse := by
      conv in hm.undoStack.reverse => rw [heq]
      rw [List.reverse_append]
      rfl
    rw [hrev] at hundo
    obtain ⟨hu1, hu2, hu3⟩ := hundo
    have h1 : (hmUndo hm doc).1.undoStack = hm.undoStack.dropLast := by
      simp [hmUndo, hlast]
    have h2 : (hmUndo hm doc).1.redoStack = hm.redoStack ++ [c] := by
      simp [hmUndo, hlast]
    have h3 : (hmUndo hm doc).2.1 = commandUndo c doc := by
      simp [hmUndo, hlast]
    have h4 : (hmUndo hm doc).1.currentMemory = hm.currentMemory := by
      simp [hmUndo, hlast]
    have hs : structOf (commandUndo c doc) = sundoStruct c (structOf doc) :=
      structOf_commandUndo c doc
    refine ⟨?_, ?_, ?_⟩
    · rw [h1, h2, h4, hmem, sumSizes_append]
      conv in sumSizes hm.undoStack => rw [heq]
      rw [sumSizes_append]
      simp only [sumSizes, List.map_cons, List.map_nil, List.sum_cons, List.sum_nil]
      ring
    · rw [h1, h3, hs]
      exact hu3
    · rw [h2, h3, hs, List.reverse_append]
      simp only [List.reverse_cons, List.reverse_nil, List.nil_append, List.singleton_append]
      refine ⟨hu2, ?_⟩
      rw [hu1]
      exact hredo

theorem histInv_redo (hm : HistoryManager) (doc : SkinDocument)
    (h : HistInv hm doc) :
    HistInv (hmRedo hm doc).1 (hmRedo hm doc).2.1 := by
  obtain ⟨hmem, hundo, hredo⟩ := h
  cases hlast : hm.redoStack.getLast? with
  | none =>
    have h1 : (hmRedo hm doc).1 = hm := by simp [hmRedo, hlast]
    have h2 : (hmRedo hm doc).2.1 = doc := by simp [hmRedo, hlast]
    rw [h1, h2]
    exact ⟨hmem, hundo, hredo⟩
  | some c =>
    have hne : hm.redoStack ≠ [] := by
      intro h0
      rw [h0] at hlast
      exact Option.noConfusion hlast
    have heq : hm.redoStack = hm.redoStack.dropLast ++ [c] := by
      have := List.dropLast_append_getLast hne
      rw [List.getLast?_eq_getLast _ hne] at hlast
      injection hlast with hc
      rw [hc] at this
      exact this.symm
    have hrev : hm.redoStack.reverse = c :: hm.redoStack.dropLast.reverse := by
      conv in hm.redoStack.reverse => rw [heq]
      rw [List.reverse_append]
      rfl
    rw [hrev] at hredo
    obtain ⟨hr1, hr2⟩ := hredo
    obtain ⟨hre1, hre2, hre3⟩ := reexec_ok c doc
    have hsize : commandSize (commandExecute c doc).2 = commandSize c := by
      rw [size_commandExecute, hr1]
    have h1 : (hmRedo hm doc).1.undoStack = hm.undoStack ++ [(commandExecute c doc).2] := by
      simp [hmRedo, hlast]
    have h2 : (hmRedo hm doc).1.redoStack = hm.redoStack.dropLast := by
      simp [hmRedo, hlast]
    have h3 : (hmRedo hm doc).2.1 = (commandExecute c doc).1 := by
      simp [hmRedo, hlast]
    have h4 : (hmRedo hm doc).1.currentMemory = hm.currentMemory := by
      simp [hmRedo, hlast]
    have hs : structOf (commandExecute c doc).1 = sexecStruct c (structOf doc) :=
      structOf_commandExecute c doc
    refine ⟨?_, ?_, ?_⟩
    · rw [h1, h2, h4, hmem, sumSizes_append]
      conv in sumSizes hm.redoStack => rw [heq]
      rw [sumSizes_append]
      simp only [sumSizes, List.map_cons, List.map_nil, List.sum_cons, List.sum_nil]
      have hsize' : ((commandSize (commandExecute c doc).2 : Int)) = (commandSize c : Int) := by
        exact_mod_cast hsize
      rw [hsize']
      ring
    · rw [h1, h3, List.reverse_append]
      simp only [List.reverse_cons, List.reverse_nil, List.nil_append, List.singleton_append]
      refine ⟨?_, ?_, ?_⟩
      · rw [hs, ← hs, hre1, hre2]
      · rw [hs, ← hs, hre1, hre3]
      · rw [hs, ← hs, hre1]
        exact hundo
    · rw [h2, h3, hs]
      exact hr2

theorem histInv_clear (hm : HistoryManager) (doc : SkinDocument) :
    HistInv (hmClear hm) doc := by
  refine ⟨rfl, ?_, ?_⟩ <;> trivial

/-- One call on a `HistoryManager`: `execute`, `undo`, `redo` or `clear`. -/
inductive HistOp where
  | exec (command : Command)
  | undo
  | redo
  | clear

/-- Apply one call to the manager/document pair. -/
def applyOp (st : HistoryManager × SkinDocument) (op : HistOp) :
    HistoryManager × SkinDocument :=
  match op with
  | .exec c => hmExecute st.1 c st.2
  | .undo => ((hmUndo st.1 st.2).1, (hmUndo st.1 st.2).2.1)
  | .redo => ((hmRedo st.1 st.2).1, (hmRedo st.1 st.2).2.1)
  | .clear => (hmClear st.1, st.2)

/-- Run a call sequence. -/
def runOps (ops : List HistOp) (st : HistoryManager × SkinDocument) :
    HistoryManager × SkinDocument :=
  ops.foldl applyOp st

theorem histInv_applyOp (st : HistoryManager × SkinDocument) (op : HistOp)
    (h : HistInv st.1 st.2) : HistInv (applyOp st op).1 (applyOp st op).2 := by
  cases op with
  | exec c => exact histInv_execute st.1 c st.2 h
  | undo => exact histInv_undo st.1 st.2 h
  | redo => exact histInv_redo st.1 st.2 h
  | clear => exact histInv_clear st.1 st.2

theorem histInv_runOps (ops : List HistOp) (st : HistoryManager × SkinDocument)
    (h : HistInv st.1 st.2) : HistInv (runOps ops st).1 (runOps ops st).2 := by
  induction ops generalizing st with
  | nil => exact h
  | cons op ops ih =>
    exact ih (applyOp st op) (histInv_applyOp st op h)

/-- C10: after any sequence of `execute`/`undo`/`redo`/`clear` calls on a
fresh `HistoryManager`, `getMemoryUsage()` equals the sum of
`getMemorySize()` over the commands currently held on the undo and redo
stacks; in particular it is 0 when both stacks are empty, and `undo`/`redo`
calls never change it. -/
theorem C10_memory_usage_invariant (ops : List HistOp) (maxMemory : Int)
    (doc0 : SkinDocument) :
    getMemoryUsage (runOps ops (newHistoryManager maxMemory, doc0)).1 =
      sumSizes (runOps ops (newHistoryManager maxMemory, doc0)).1.undoStack
      + sumSizes (runOps ops (newHistoryManager maxMemory, doc0)).1.redoStack
    ∧ ((runOps ops (newHistoryManager maxMemory, doc0)).1.undoStack = [] →
        (runOps ops (newHistoryManager maxMemory, doc0)).1.redoStack = [] →
        getMemoryUsage (runOps ops (newHistoryManager maxMemory, doc0)).1 = 0)
    ∧ (∀ (hm : HistoryManager) (d : SkinDocument),
        getMemoryUsage (hmUndo hm d).1 = getMemoryUsage hm
        ∧ getMemoryUsage (hmRedo hm d).1 = getMemoryUsage hm) := by
  have hinv := histInv_runOps ops (newHistoryManager maxMemory, doc0)
    (histInv_new maxMemory doc0)
  refine ⟨hinv.1, ?_, ?_⟩
  · intro hu hr
    have := hinv.1
    rw [hu, hr] at this
    simpa [sumSizes] using this
  · intro hm d
    constructor
    · cases hlast : hm.undoStack.getLast? <;> simp [hmUndo, hlast, getMemoryUsage]
    · cases hlast : hm.redoStack.getLast? <;> simp [hmRedo, hlast, getMemoryUsage]

/-! ## Undo/redo roundtrip for draw commands (byte-write semantics)

A `DrawCommand` mutation is a sequence of byte stores; the roundtrip proof
reasons per byte address about which store lands last. -/

/-- The four byte stores of one pixel write at stride `width`. -/
def pixelWrites (width : Nat) (p : Pixel) : List (Int × Nat) :=
  [(pixIdx width p.x p.y, p.color.r), (pixIdx width p.x p.y + 1, p.color.g),
   (pixIdx width p.x p.y + 2, p.color.b), (pixIdx width p.x p.y + 3, p.color.a)]

/-- Byte stores of a pixel list, in order. -/
def pixelsWrites (width : Nat) (ps : List Pixel) : List (Int × Nat) :=
  ps.flatMap (pixelWrites width)

/-- Apply byte stores in order. -/
def applyWrites (ws : List (Int × Nat)) (d : List Nat) : List Nat :=
  ws.foldl (fun d w => writeByte d w.1 w.2) d

/-- The last store to a given address, if any. -/
def lastWrite (ws : List (Int × Nat)) (a : Nat) : Option Nat :=
  (ws.filterMap (fun w => if w.1 = (a : Int) then some w.2 else none)).getLast?

theorem length_applyWrites (ws : List (Int × Nat)) (d : List Nat) :
    (applyWrites ws d).length = d.length := by
  induction ws generalizing d with
  | nil => rfl
  | cons w ws ih => simp [applyWrites, List.foldl_cons] at ih ⊢; rw [ih, length_writeByte]

theorem applyWrites_append (xs ys : List (Int × Nat)) (d : List Nat) :
    applyWrites (xs ++ ys) d = applyWrites ys (applyWrites xs d) := by
  simp [applyWrites, List.foldl_append]

theorem lastWrite_append (xs ys : List (Int × Nat)) (a : Nat) :
    lastWrite (xs ++ ys) a = (lastWrite ys a).or (lastWrite xs a) := by
  simp [lastWrite, List.filterMap_append, List.getLast?_append]

theorem lastWrite_eq_none_iff (ws : List (Int × Nat)) (a : Nat) :
    lastWrite ws a = Option.none ↔ ∀ w ∈ ws, w.1 ≠ (a : Int) := by
  rw [lastWrite, List.getLast?_eq_none_iff, List.filterMap_eq_nil_iff]
  constructor
  · intro h w hw
    have := h w hw
    by_contra hc
    simp [hc] at this
  · intro h w hw
    simp [h w hw]

/-- Per-address semantics of a store sequence: the last store to an address
wins (clamped), out-of-range addresses are never written, and unwritten
addresses keep the original byte. -/
theorem getElem?_applyWrites (ws : List (Int × Nat)) (d : List Nat) (a : Nat) :
    (applyWrites ws d)[a]? =
      match lastWrite ws a with
      | some v => if a < d.length then some (uclamp v) else Option.none
      | Option.none => d[a]? := by
  induction ws generalizing d with
  | nil => simp [applyWrites, lastWrite]
  | cons w ws ih =>
    have hstep : applyWrites (w :: ws) d = applyWrites ws (writeByte d w.1 w.2) := rfl
    rw [hstep, ih]
    cases hlw : lastWrite ws a with
    | some v =>
      have hlw' : lastWrite (w :: ws) a = some v := by
        rw [lastWrite, List.filterMap_cons]
        rw [lastWrite] at hlw
        cases hifw : (if w.1 = (a : Int) then some w.2 else (Option.none : Option Nat)) with
        | none => exact hlw
        | some b =>
          rw [List.getLast?_cons, hlw]
          rfl
      rw [hlw', length_writeByte]
    | none =>
      by_cases hwa : w.1 = (a : Int)
      · have hlw' : lastWrite (w :: ws) a = some w.2 := by
          rw [lastWrite, List.filterMap_cons, if_pos hwa, List.getLast?_cons]
          rw [lastWrite] at hlw
          rw [hlw]
          rfl
        rw [hlw']
        have h0a : (0 : Int) ≤ w.1 := by rw [hwa]; exact Int.natCast_nonneg a
        have hta : w.1.toNat = a := by omega
        show (writeByte d w.1 w.2)[a]? = if a < d.length then some (uclamp w.2) else Option.none
        rw [writeByte, if_pos h0a, hta, List.getElem?_set]
        simp
      · have hlw' : lastWrite (w :: ws) a = Option.none := by
          rw [lastWrite, List.filterMap_cons, if_neg hwa]
          exact hlw
        rw [hlw']
        show (writeByte d w.1 w.2)[a]? = d[a]?
        rw [writeByte]
        by_cases h0 : (0 : Int) ≤ w.1
        · rw [if_pos h0]
          have hta : w.1.toNat ≠ a := by omega
          rw [List.getElem?_set_ne hta]
        · rw [if_neg h0]

/-- Replaying a store sequence absorbs any interleaved stores that hit only
addresses the sequence writes itself: `W ++ O ++ W` acts like `W` when every
address of `O` is an address of `W`. -/
theorem applyWrites_sandwich (wl ol : List (Int × Nat)) (d : List Nat)
    (hsub : ∀ a, a ∈ ol.map Prod.fst → a ∈ wl.map Prod.fst) :
    applyWrites (wl ++ ol ++ wl) d = applyWrites wl d := by
  apply List.ext_getElem?
  intro a
  rw [getElem?_applyWrites, getElem?_applyWrites]
  rw [lastWrite_append, lastWrite_append]
  cases hlw : lastWrite wl a with
  | some v => simp
  | none =>
    have ho : lastWrite ol a = Option.none := by
      rw [lastWrite_eq_none_iff] at hlw ⊢
      intro w hw hcontra
      have hmem : (a : Int) ∈ wl.map Prod.fst := by
        apply hsub
        rw [List.mem_map]
        exact ⟨w, hw, hcontra⟩
      rw [List.mem_map] at hmem
      obtain ⟨w', hw', hww⟩ := hmem
      exact hlw w' hw' hww
    simp [ho, hlw]

/-- One `DrawCommand`-style buffer mutation: write a pixel list into the
first layer with a matching id (`DrawCommand.execute` with `newPixels`, or
`DrawCommand.undo` with `originalPixels`). -/
def drawEvent (lid : String) (ps : List Pixel) (d : SkinDocument) : SkinDocument :=
  ⟨updateFirstLayer d.layers lid (fun img => writePixels img ps)⟩

/-- Apply a list of draw mutations in order. -/
def applyEvents (evs : List (String × List Pixel)) (d : SkinDocument) : SkinDocument :=
  evs.foldl (fun d e => drawEvent e.1 e.2 d) d

theorem applyEvents_append (xs ys : List (String × List Pixel)) (d : SkinDocument) :
    applyEvents (xs ++ ys) d = applyEvents ys (applyEvents xs d) := by
  simp [applyEvents, List.foldl_append]

theorem writePixel_eq (img : Img) (p : Pixel) :
    writePixel img p =
      { img with data := applyWrites (pixelWrites img.width p) img.data } := rfl

theorem writePixels_eq (ps : List Pixel) (img : Img) :
    writePixels img ps =
      { img with data := applyWrites (pixelsWrites img.width ps) img.data } := by
  induction ps generalizing img with
  | nil => rfl
  | cons p ps ih =>
    have h1 : writePixels img (p :: ps) = writePixels (writePixel img p) ps := rfl
    rw [h1, ih, writePixel_eq]
    have h2 : pixelsWrites img.width (p :: ps) =
        pixelWrites img.width p ++ pixelsWrites img.width ps := by
      simp [pixelsWrites]
    rw [h2, applyWrites_append]

/-- The byte stores an event list performs on a layer with the given id and
stride width. -/
def collectWrites (evs : List (String × List Pixel)) (lid : String) (w : Nat) :
    List (Int × Nat) :=
  (evs.filter (fun e => e.1 = lid)).flatMap (fun e => pixelsWrites w e.2)

theorem applyEvents_nil_layers (evs : List (String × List Pixel)) :
    applyEvents evs ⟨[]⟩ = ⟨[]⟩ := by
  induction evs with
  | nil => rfl
  | cons e evs ih => exact ih

/-- Event application acts layer-by-layer: the head layer receives the byte
stores of the events with its id, the tail receives the remaining events. -/
theorem applyEvents_cons_layers (evs : List (String × List Pixel)) (l : Layer)
    (ls : List Layer) :
    applyEvents evs ⟨l :: ls⟩ =
      ⟨{ l with imageData := { l.imageData with
            data := applyWrites (collectWrites evs l.id l.imageData.width)
              l.imageData.data } }
        :: (applyEvents (evs.filter (fun e => e.1 ≠ l.id)) ⟨ls⟩).layers⟩ := by
  induction evs generalizing l ls with
  | nil => rfl
  | cons e evs ih =>
    by_cases he : e.1 = l.id
    · have hstep : applyEvents (e :: evs) ⟨l :: ls⟩ =
          applyEvents evs ⟨{ l with imageData := writePixels l.imageData e.2 } :: ls⟩ := by
        have : drawEvent e.1 e.2 ⟨l :: ls⟩ =
            ⟨{ l with imageData := writePixels l.imageData e.2 } :: ls⟩ := by
          simp [drawEvent, updateFirstLayer, he.symm]
        simp only [applyEvents, List.foldl_cons]
        rw [show (drawEvent e.1 e.2 ⟨l :: ls⟩ : SkinDocument) =
          ⟨{ l with imageData := writePixels l.imageData e.2 } :: ls⟩ from this]
      rw [hstep, ih]
      rw [writePixels_eq]
      have hcol : collectWrites (e :: evs) l.id l.imageData.width =
          pixelsWrites l.imageData.width e.2 ++ collectWrites evs l.id l.imageData.width := by
        simp [collectWrites, List.filter_cons, he]
      have hfil : (e :: evs).filter (fun e => e.1 ≠ l.id) =
          evs.filter (fun e => e.1 ≠ l.id) := by
        simp [List.filter_cons, he]
      rw [hcol, hfil, applyWrites_append]
    · have hstep : applyEvents (e :: evs) ⟨l :: ls⟩ =
          applyEvents evs ⟨l :: (drawEvent e.1 e.2 ⟨ls⟩).layers⟩ := by
        have : drawEvent e.1 e.2 ⟨l :: ls⟩ = ⟨l :: (drawEvent e.1 e.2 ⟨ls⟩).layers⟩ := by
          simp [drawEvent, updateFirstLayer, he]
          intro hcontra
          exact absurd hcontra.symm he
        simp only [applyEvents, List.foldl_cons]
        rw [show (drawEvent e.1 e.2 ⟨l :: ls⟩ : SkinDocument) =
          ⟨l :: (drawEvent e.1 e.2 ⟨ls⟩).layers⟩ from this]
      rw [hstep, ih l ((drawEvent e.1 e.2 ⟨ls⟩).layers)]
      have hcol : collectWrites (e :: evs) l.id l.imageData.width =
          collectWrites evs l.id l.imageData.width := by
        simp [collectWrites, List.filter_cons, he]
      have hfil : (e :: evs).filter (fun e => e.1 ≠ l.id) =
          e :: evs.filter (fun e => e.1 ≠ l.id) := by
        simp [List.filter_cons, he]
      rw [hcol, hfil]
      have heta : (⟨(drawEvent e.1 e.2 ⟨ls⟩).layers⟩ : SkinDocument) =
          drawEvent e.1 e.2 ⟨ls⟩ := rfl
      rw [heta]
      have : applyEvents (e :: evs.filter (fun e => e.1 ≠ l.id)) ⟨ls⟩ =
          applyEvents (evs.filter (fun e => e.1 ≠ l.id)) (drawEvent e.1 e.2 ⟨ls⟩) := rfl
      rw [this]

/-- Coordinate coverage between two event lists: every pixel coordinate of
an event of the first list also occurs, for the same layer id, in some event
of the second list. -/
def coveredBy (oev wev : List (String × List Pixel)) : Prop :=
  ∀ e ∈ oev, ∀ p ∈ e.2, ∃ e' ∈ wev, e'.1 = e.1 ∧ ∃ p' ∈ e'.2, p'.x = p.x ∧ p'.y = p.y

theorem coveredBy_filter (oev wev : List (String × List Pixel))
    (q : String × List Pixel → Bool) (hq : ∀ e e', e.1 = e'.1 → q e = q e')
    (hcov : coveredBy oev wev) : coveredBy (oev.filter q) (wev.filter q) := by
  intro e he p hp
  rw [List.mem_filter] at he
  obtain ⟨e', he', hid, p', hp', hxy⟩ := hcov e he.1 p hp
  refine ⟨e', ?_, hid, p', hp', hxy⟩
  rw [List.mem_filter]
  exact ⟨he', (hq e' e hid).trans he.2⟩

theorem mem_addr_collectWrites (evs : List (String × List Pixel)) (lid : String)
    (w : Nat) (a : Int) :
    a ∈ (collectWrites evs lid w).map Prod.fst ↔
      ∃ e ∈ evs, e.1 = lid ∧ ∃ p ∈ e.2,
        a = pixIdx w p.x p.y ∨ a = pixIdx w p.x p.y + 1
        ∨ a = pixIdx w p.x p.y + 2 ∨ a = pixIdx w p.x p.y + 3 := by
  simp only [collectWrites, List.map_flatMap, List.mem_flatMap, List.mem_filter]
  constructor
  · rintro ⟨e, ⟨he, hlid⟩, ha⟩
    refine ⟨e, he, by simpa using hlid, ?_⟩
    simp only [pixelsWrites, List.map_flatMap, List.mem_flatMap] at ha
    obtain ⟨p, hp, hap⟩ := ha
    refine ⟨p, hp, ?_⟩
    simp only [pixelWrites, List.map_cons, List.map_nil, List.mem_cons,
      List.not_mem_nil, or_false] at hap
    tauto
  · rintro ⟨e, he, hlid, p, hp, hcase⟩
    refine ⟨e, ⟨he, by simpa using hlid⟩, ?_⟩
    simp only [pixelsWrites, List.map_flatMap, List.mem_flatMap]
    refine ⟨p, hp, ?_⟩
    simp only [pixelWrites, List.map_cons, List.map_nil, List.mem_cons,
      List.not_mem_nil, or_false]
    tauto

theorem collectWrites_sub (oev wev : List (String × List Pixel)) (lid : String)
    (w : Nat) (hcov : coveredBy oev wev) :
    ∀ a, a ∈ (collectWrites oev lid w).map Prod.fst →
      a ∈ (collectWrites wev lid w).map Prod.fst := by
  intro a ha
  rw [mem_addr_collectWrites] at ha ⊢
  obtain ⟨e, he, hlid, p, hp, hcase⟩ := ha
  obtain ⟨e', he', hid, p', hp', hx, hy⟩ := hcov e he p hp
  exact ⟨e', he', hid.trans hlid, p', hp', by rw [hx, hy]; exact hcase⟩

/-- Document-level sandwich: replaying the write events absorbs interleaved
events that touch only covered coordinates. -/
theorem applyEvents_sandwich (ls : List Layer) :
    ∀ (wev oev : List (String × List Pixel)), coveredBy oev wev →
      applyEvents (wev ++ oev ++ wev) ⟨ls⟩ = applyEvents wev ⟨ls⟩ := by
  induction ls with
  | nil =>
    intro wev oev _
    rw [applyEvents_nil_layers, applyEvents_nil_layers]
  | cons l ls ih =>
    intro wev oev hcov
    rw [applyEvents_cons_layers, applyEvents_cons_layers]
    have hcolapp : collectWrites (wev ++ oev ++ wev) l.id l.imageData.width =
        collectWrites wev l.id l.imageData.width
        ++ collectWrites oev l.id l.imageData.width
        ++ collectWrites wev l.id l.imageData.width := by
      simp [collectWrites, List.filter_append, List.flatMap_append]
    have hhead : applyWrites (collectWrites (wev ++ oev ++ wev) l.id l.imageData.width)
          l.imageData.data
        = applyWrites (collectWrites wev l.id l.imageData.width) l.imageData.data := by
      rw [hcolapp]
      exact applyWrites_sandwich _ _ _ (collectWrites_sub oev wev l.id l.imageData.width hcov)
    have hfilapp : (wev ++ oev ++ wev).filter (fun e => e.1 ≠ l.id) =
        wev.filter (fun e => e.1 ≠ l.id) ++ oev.filter (fun e => e.1 ≠ l.id)
        ++ wev.filter (fun e => e.1 ≠ l.id) := by
      simp [List.filter_append]
    have htail : applyEvents ((wev ++ oev ++ wev).filter (fun e => e.1 ≠ l.id)) ⟨ls⟩ =
        applyEvents (wev.filter (fun e => e.1 ≠ l.id)) ⟨ls⟩ := by
      rw [hfilapp]
      exact ih _ _ (coveredBy_filter oev wev _ (fun e e' h => by rw [h]) hcov)
    rw [hhead, htail]

/-- The data of one `DrawCommand` as the tools construct it:
`new DrawCommand(layerId, originalPixels, newPixels)`. -/
structure DrawSpec where
  layerId : String
  originalPixels : List Pixel
  newPixels : List Pixel
deriving DecidableEq, Repr

/-- The `DrawCommand` list built from the specs. -/
def cmdsOf (l : List DrawSpec) : List Command :=
  l.map (fun t => .draw t.layerId t.originalPixels t.newPixels)

/-- Forward mutations of the commands. -/
def execEvents (l : List DrawSpec) : List (String × List Pixel) :=
  l.map (fun t => (t.layerId, t.newPixels))

/-- Reverse mutations of the commands. -/
def undoEvents (l : List DrawSpec) : List (String × List Pixel) :=
  l.map (fun t => (t.layerId, t.originalPixels))

/-- Apply a command list through `HistoryManager.execute`. -/
def applyExecs (cs : List Command) (st : HistoryManager × SkinDocument) :
    HistoryManager × SkinDocument :=
  cs.foldl (fun st c => hmExecute st.1 c st.2) st

/-- Call `undo(doc)` the given number of times. -/
def applyUndos : Nat → HistoryManager × SkinDocument → HistoryManager × SkinDocument
  | 0, st => st
  | n + 1, st => applyUndos n ((hmUndo st.1 st.2).1, (hmUndo st.1 st.2).2.1)

/-- Call `redo(doc)` the given number of times. -/
def applyRedos : Nat → HistoryManager × SkinDocument → HistoryManager × SkinDocument
  | 0, st => st
  | n + 1, st => applyRedos n ((hmRedo st.1 st.2).1, (hmRedo st.1 st.2).2.1)

theorem sumSizes_nonneg (l : List Command) : 0 ≤ sumSizes l := by
  apply List.sum_nonneg
  intro x hx
  rw [List.mem_map] at hx
  obtain ⟨c, -, hc⟩ := hx
  rw [← hc]
  exact Int.natCast_nonneg _

theorem sumSizes_cons (c : Command) (l : List Command) :
    sumSizes (c :: l) = (commandSize c : Int) + sumSizes l := by
  simp [sumSizes]

theorem pruneLoop_noop (l : List Command) (mem maxMem : Int) (h : mem ≤ maxMem) :
    pruneLoop l mem maxMem = (l, mem) := by
  match l with
  | [] => rfl
  | [c] => rfl
  | c :: c₂ :: rest =>
    rw [pruneLoop, if_neg (by omega)]

/-- Executing draw commands with enough memory headroom: nothing is pruned,
the commands land on the undo stack in order, the redo stack stays empty,
and the document receives the forward mutations in order. -/
theorem applyExecs_draws (specs : List DrawSpec) :
    ∀ (hm : HistoryManager) (d : SkinDocument),
      hm.redoStack = [] →
      hm.currentMemory + sumSizes (cmdsOf specs) ≤ hm.maxMemory →
      applyExecs (cmdsOf specs) (hm, d) =
        ({ hm with
            undoStack := hm.undoStack ++ cmdsOf specs
            redoStack := []
            currentMemory := hm.currentMemory + sumSizes (cmdsOf specs) },
          applyEvents (execEvents specs) d) := by
  induction specs with
  | nil =>
    intro hm d hr _
    cases hm
    simp_all [applyExecs, cmdsOf, execEvents, applyEvents, sumSizes]
  | cons t ts ih =>
    intro hm d hr hmem
    have hz : sumSizes hm.redoStack = 0 := by
      rw [hr]
      rfl
    have hcons : cmdsOf (t :: ts) =
        Command.draw t.layerId t.originalPixels t.newPixels :: cmdsOf ts := rfl
    have hnn := sumSizes_nonneg (cmdsOf ts)
    rw [hcons, sumSizes_cons] at hmem
    have hmem1 : hm.currentMemory - sumSizes hm.redoStack
        + (commandSize (Command.draw t.layerId t.originalPixels t.newPixels) : Int)
        ≤ hm.maxMemory := by omega
    have hc2 : (commandExecute (Command.draw t.layerId t.originalPixels t.newPixels) d).2
        = Command.draw t.layerId t.originalPixels t.newPixels := rfl
    have hstep : hmExecute hm (.draw t.layerId t.originalPixels t.newPixels) d =
        ({ hm with
            undoStack := hm.undoStack ++ [.draw t.layerId t.originalPixels t.newPixels]
            redoStack := []
            currentMemory := hm.currentMemory - sumSizes hm.redoStack
              + (commandSize (Command.draw t.layerId t.originalPixels t.newPixels) : Int) },
          drawEvent t.layerId t.newPixels d) := by
      rw [hmExecute, hc2]
      rw [pruneLoop_noop _ _ _ hmem1]
      rfl
    have hfold : applyExecs (cmdsOf (t :: ts)) (hm, d) =
        applyExecs (cmdsOf ts)
          (hmExecute hm (.draw t.layerId t.originalPixels t.newPixels) d) := rfl
    rw [hfold, hstep]
    rw [ih _ _ rfl (by simp only []; omega)]
    have hev : applyEvents (execEvents (t :: ts)) d =
        applyEvents (execEvents ts) (drawEvent t.layerId t.newPixels d) := rfl
    rw [hev, hcons, sumSizes_cons]
    have hu : (hm.undoStack ++ [Command.draw t.layerId t.originalPixels t.newPixels])
        ++ cmdsOf ts
        = hm.undoStack ++ Command.draw t.layerId t.originalPixels t.newPixels :: cmdsOf ts := by
      simp
    have hmeme : hm.currentMemory - sumSizes hm.redoStack
        + (commandSize (Command.draw t.layerId t.originalPixels t.newPixels) : Int)
        + sumSizes (cmdsOf ts)
        = hm.currentMemory
          + ((commandSize (Command.draw t.layerId t.originalPixels t.newPixels) : Int)
            + sumSizes (cmdsOf ts)) := by omega
    rw [hu, hmeme]

/-- `undo` called once per stacked command pops them most-recent-first onto
the redo stack and applies their reverse mutations in that order. -/
theorem applyUndos_spec (cmds : List Command) :
    ∀ (hm : HistoryManager) (u : List Command) (d : SkinDocument),
      hm.undoStack = u ++ cmds →
      applyUndos cmds.length (hm, d) =
        ({ hm with
            undoStack := u
            redoStack := hm.redoStack ++ cmds.reverse },
          cmds.reverse.foldl (fun dd c => commandUndo c dd) d) := by
  induction cmds using List.reverseRecOn with
  | nil =>
    intro hm u d h
    simp only [List.append_nil] at h
    cases hm
    simp_all [applyUndos]
  | append_singleton cs c ih =>
    intro hm u d h
    have hlen : (cs ++ [c]).length = cs.length + 1 := by simp
    have hassoc : hm.undoStack = (u ++ cs) ++ [c] := by
      rw [h, List.append_assoc]
    have hlast : hm.undoStack.getLast? = some c := by
      rw [hassoc, List.getLast?_concat]
    have hdrop : hm.undoStack.dropLast = u ++ cs := by
      rw [hassoc, List.dropLast_concat]
    have hstep : hmUndo hm d =
        ({ hm with
            undoStack := u ++ cs
            redoStack := hm.redoStack ++ [c] },
          commandUndo c d, true) := by
      rw [hmUndo, hlast]
      simp only [hdrop]
    rw [hlen]
    have h1 : applyUndos (cs.length + 1) (hm, d) =
        applyUndos cs.length ((hmUndo hm d).1, (hmUndo hm d).2.1) := rfl
    rw [h1, hstep]
    rw [ih _ u _ rfl]
    have hrev : (cs ++ [c]).reverse = c :: cs.reverse := by simp
    rw [hrev]
    have hfold : (c :: cs.reverse).foldl (fun dd cc => commandUndo cc dd) d =
        cs.reverse.foldl (fun dd cc => commandUndo cc dd) (commandUndo c d) := rfl
    rw [hfold]
    have hred : (hm.redoStack ++ [c]) ++ cs.reverse = hm.redoStack ++ (c :: cs.reverse) := by
      simp
    rw [hred]

/-- `redo` called once per stacked draw command replays them in original
order back onto the undo stack. -/
theorem applyRedos_draws (specs : List DrawSpec) :
    ∀ (hm : HistoryManager) (d : SkinDocument),
      hm.redoStack = (cmdsOf specs).reverse →
      applyRedos specs.length (hm, d) =
        ({ hm with
            redoStack := []
            undoStack := hm.undoStack ++ cmdsOf specs },
          applyEvents (execEvents specs) d) := by
  induction specs with
  | nil =>
    intro hm d h
    simp only [cmdsOf, List.map_nil, List.reverse_nil] at h
    cases hm
    simp_all [applyRedos, cmdsOf, execEvents, applyEvents]
  | cons t ts ih =>
    intro hm d h
    have hrev : (cmdsOf (t :: ts)).reverse =
        (cmdsOf ts).reverse ++ [Command.draw t.layerId t.originalPixels t.newPixels] := by
      simp [cmdsOf]
    rw [hrev] at h
    have hlast : hm.redoStack.getLast? =
        some (Command.draw t.layerId t.originalPixels t.newPixels) := by
      rw [h, List.getLast?_concat]
    have hdrop : hm.redoStack.dropLast = (cmdsOf ts).reverse := by
      rw [h, List.dropLast_concat]
    have hstep : hmRedo hm d =
        ({ hm with
            redoStack := (cmdsOf ts).reverse
            undoStack := hm.undoStack ++ [Command.draw t.layerId t.originalPixels t.newPixels] },
          drawEvent t.layerId t.newPixels d, true) := by
      rw [hmRedo, hlast]
      simp only [hdrop]
      rfl
    have h1 : applyRedos (t :: ts).length (hm, d) =
        applyRedos ts.length ((hmRedo hm d).1, (hmRedo hm d).2.1) := rfl
    rw [h1, hstep]
    rw [ih _ _ rfl]
    have hu : (hm.undoStack ++ [Command.draw t.layerId t.originalPixels t.newPixels])
        ++ cmdsOf ts = hm.undoStack ++ cmdsOf (t :: ts) := by
      simp [cmdsOf]
    rw [hu]
    rfl

/-- For draw commands, the reverse mutations are the `originalPixels`
events. -/
theorem foldl_commandUndo_draws (specs : List DrawSpec) :
    ∀ d : SkinDocument,
      (cmdsOf specs).foldl (fun dd c => commandUndo c dd) d =
        applyEvents (undoEvents specs) d := by
  induction specs with
  | nil => intro d; rfl
  | cons t ts ih =>
    intro d
    exact ih (commandUndo (.draw t.layerId t.originalPixels t.newPixels) d)

theorem cmdsOf_reverse (specs : List DrawSpec) :
    (cmdsOf specs).reverse = cmdsOf specs.reverse := by
  simp [cmdsOf, List.map_reverse]

/-- Executing a non-empty draw batch with enough memory headroom, from any
starting manager state. -/
theorem applyExecs_draws_ne (specs : List DrawSpec) (hm : HistoryManager)
    (d : SkinDocument) (hne : specs ≠ [])
    (hmem : hm.currentMemory - sumSizes hm.redoStack + sumSizes (cmdsOf specs)
      ≤ hm.maxMemory) :
    applyExecs (cmdsOf specs) (hm, d) =
      ({ hm with
          undoStack := hm.undoStack ++ cmdsOf specs
          redoStack := []
          currentMemory := hm.currentMemory - sumSizes hm.redoStack
            + sumSizes (cmdsOf specs) },
        applyEvents (execEvents specs) d) := by
  match specs, hne with
  | t :: ts, _ =>
    have hcons : cmdsOf (t :: ts) =
        Command.draw t.layerId t.originalPixels t.newPixels :: cmdsOf ts := rfl
    have hnn := sumSizes_nonneg (cmdsOf ts)
    rw [hcons, sumSizes_cons] at hmem
    have hmem1 : hm.currentMemory - sumSizes hm.redoStack
        + (commandSize (Command.draw t.layerId t.originalPixels t.newPixels) : Int)
        ≤ hm.maxMemory := by omega
    have hc2 : (commandExecute (Command.draw t.layerId t.originalPixels t.newPixels) d).2
        = Command.draw t.layerId t.originalPixels t.newPixels := rfl
    have hstep : hmExecute hm (.draw t.layerId t.originalPixels t.newPixels) d =
        ({ hm with
            undoStack := hm.undoStack ++ [.draw t.layerId t.originalPixels t.newPixels]
            redoStack := []
            currentMemory := hm.currentMemory - sumSizes hm.redoStack
              + (commandSize (Command.draw t.layerId t.originalPixels t.newPixels) : Int) },
          drawEvent t.layerId t.newPixels d) := by
      rw [hmExecute, hc2]
      rw [pruneLoop_noop _ _ _ hmem1]
      rfl
    have hfold : applyExecs (cmdsOf (t :: ts)) (hm, d) =
        applyExecs (cmdsOf ts)
          (hmExecute hm (.draw t.layerId t.originalPixels t.newPixels) d) := rfl
    rw [hfold, hstep]
    rw [applyExecs_draws ts _ _ rfl (by simp only []; omega)]
    have hev : applyEvents (execEvents (t :: ts)) d =
        applyEvents (execEvents ts) (drawEvent t.layerId t.newPixels d) := rfl
    rw [hev, hcons, sumSizes_cons]
    have hu : (hm.undoStack ++ [Command.draw t.layerId t.originalPixels t.newPixels])
        ++ cmdsOf ts
        = hm.undoStack ++ Command.draw t.layerId t.originalPixels t.newPixels :: cmdsOf ts := by
      simp
    have hmeme : hm.currentMemory - sumSizes hm.redoStack
        + (commandSize (Command.draw t.layerId t.originalPixels t.newPixels) : Int)
        + sumSizes (cmdsOf ts)
        = hm.currentMemory - sumSizes hm.redoStack
          + ((commandSize (Command.draw t.layerId t.originalPixels t.newPixels) : Int)
            + sumSizes (cmdsOf ts)) := by omega
    rw [hu, hmeme]

theorem coveredBy_undo_exec (specs : List DrawSpec)
    (hwf : ∀ t ∈ specs, ∀ p ∈ t.originalPixels,
      ∃ p' ∈ t.newPixels, p'.x = p.x ∧ p'.y = p.y) :
    coveredBy (undoEvents specs.reverse) (execEvents specs) := by
  intro e he p hp
  simp only [undoEvents, List.mem_map, List.mem_reverse] at he
  obtain ⟨t, ht, rfl⟩ := he
  obtain ⟨p', hp', hx, hy⟩ := hwf t ht p hp
  refine ⟨(t.layerId, t.newPixels), ?_, rfl, p', hp', hx, hy⟩
  simp only [execEvents, List.mem_map]
  exact ⟨t, ht, rfl⟩

/-- C1: executing any batch of `DrawCommand`s (for which, as the tools
guarantee, each recorded original pixel coordinate is also a written
coordinate) through `HistoryManager.execute` with the memory ceiling large
enough that nothing is evicted, then calling `undo` N times and `redo`
N times, reproduces exactly the document state from just after the batch —
every layer pixel buffer is byte-identical. -/
theorem C1_undo_redo_roundtrip (specs : List DrawSpec) (hm : HistoryManager)
    (d0 : SkinDocument)
    (hwf : ∀ t ∈ specs, ∀ p ∈ t.originalPixels,
      ∃ p' ∈ t.newPixels, p'.x = p.x ∧ p'.y = p.y)
    (hmem : hm.currentMemory - sumSizes hm.redoStack + sumSizes (cmdsOf specs)
      ≤ hm.maxMemory) :
    (applyRedos specs.length (applyUndos specs.length
        (applyExecs (cmdsOf specs) (hm, d0)))).2 =
      (applyExecs (cmdsOf specs) (hm, d0)).2 := by
  by_cases hne : specs = []
  · subst hne
    rfl
  · rw [applyExecs_draws_ne specs hm d0 hne hmem]
    have hlen : (cmdsOf specs).length = specs.length := by simp [cmdsOf]
    rw [← hlen]
    rw [applyUndos_spec (cmdsOf specs) _ hm.undoStack _ rfl]
    have hfoldu : (cmdsOf specs).reverse.foldl (fun dd c => commandUndo c dd)
          (applyEvents (execEvents specs) d0)
        = applyEvents (undoEvents specs.reverse)
            (applyEvents (execEvents specs) d0) := by
      rw [cmdsOf_reverse]
      exact foldl_commandUndo_draws specs.reverse _
    rw [hfoldu, hlen]
    rw [applyRedos_draws specs _ _ (by simp)]
    have hchain : applyEvents (execEvents specs)
          (applyEvents (undoEvents specs.reverse)
            (applyEvents (execEvents specs) d0))
        = applyEvents (execEvents specs
            ++ undoEvents specs.reverse ++ execEvents specs) d0 := by
      rw [applyEvents_append, applyEvents_append]
    rw [hchain]
    have hsand := applyEvents_sandwich d0.layers (execEvents specs)
      (undoEvents specs.reverse) (coveredBy_undo_exec specs hwf)
    have hd0 : (⟨d0.layers⟩ : SkinDocument) = d0 := rfl
    rw [hd0] at hsand
    rw [hsand]

/-- Witness for C1: one concrete draw command on a 2×2 layer, with the
original pixel recorded at the written coordinate. -/
theorem C1_undo_redo_roundtrip_witness :
    (∀ t ∈ [DrawSpec.mk "layer1" [⟨1, 1, ⟨1, 2, 3, 4⟩⟩] [⟨1, 1, ⟨9, 9, 9, 255⟩⟩]],
      ∀ p ∈ t.originalPixels, ∃ p' ∈ t.newPixels, p'.x = p.x ∧ p'.y = p.y)
    ∧ ((newHistoryManager (50 * 1024 * 1024)).currentMemory
        - sumSizes (newHistoryManager (50 * 1024 * 1024)).redoStack
        + sumSizes (cmdsOf [DrawSpec.mk "layer1" [⟨1, 1, ⟨1, 2, 3, 4⟩⟩] [⟨1, 1, ⟨9, 9, 9, 255⟩⟩]])
        ≤ (newHistoryManager (50 * 1024 * 1024)).maxMemory)
    ∧ (applyRedos 1 (applyUndos 1
        (applyExecs (cmdsOf [DrawSpec.mk "layer1" [⟨1, 1, ⟨1, 2, 3, 4⟩⟩] [⟨1, 1, ⟨9, 9, 9, 255⟩⟩]])
          (newHistoryManager (50 * 1024 * 1024),
            ⟨[⟨"layer1", ⟨2, 2, List.replicate 16 0⟩⟩]⟩)))).2 =
      (applyExecs (cmdsOf [DrawSpec.mk "layer1" [⟨1, 1, ⟨1, 2, 3, 4⟩⟩] [⟨1, 1, ⟨9, 9, 9, 255⟩⟩]])
        (newHistoryManager (50 * 1024 * 1024),
          ⟨[⟨"layer1", ⟨2, 2, List.replicate 16 0⟩⟩]⟩)).2 := by
  refine ⟨by decide, by decide, ?_⟩
  exact C1_undo_redo_roundtrip
    [DrawSpec.mk "layer1" [⟨1, 1, ⟨1, 2, 3, 4⟩⟩] [⟨1, 1, ⟨9, 9, 9, 255⟩⟩]]
    (newHistoryManager (50 * 1024 * 1024))
    ⟨[⟨"layer1", ⟨2, 2, List.replicate 16 0⟩⟩]⟩
    (by decide) (by decide)

/-! ## Line and gradient tools (`tools/LineTool.ts`, `tools/GradientTool.ts`) -/

/-- The stepping loop of `bresenhamLine` from `utils/geometry.ts`.  The loop
reaches `(x1, y1)` in at most `max dx dy` steps, so the structural fuel
`dx + dy + 1` never runs out on the calls below. -/
def bresenhamLoop (x1 y1 dx dy sx sy : Int) :
    Nat → Int → Int → Int → List Point
  | 0, _, _, _ => []
  | fuel + 1, err, x, y =>
    if x = x1 ∧ y = y1 then [⟨x, y⟩]
    else
      let e2 := 2 * err
      let err1 := if e2 > -dy then err - dy else err
      let x1n := if e2 > -dy then x + sx else x
      let err2 := if e2 < dx then err1 + dx else err1
      let y1n := if e2 < dx then y + sy else y
      ⟨x, y⟩ :: bresenhamLoop x1 y1 dx dy sx sy fuel err2 x1n y1n

/-- `bresenhamLine(x0, y0, x1, y1)` from `utils/geometry.ts`. -/
def bresenhamLine (x0 y0 x1 y1 : Int) : List Point :=
  let dx := |x1 - x0|
  let dy := |y1 - y0|
  let sx : Int := if x0 < x1 then 1 else -1
  let sy : Int := if y0 < y1 then 1 else -1
  bresenhamLoop x1 y1 dx dy sx sy (dx.toNat + dy.toNat + 1) (dx - dy) x0 y0

/-- `filledCirclePoints` from `utils/geometry.ts`: scan the bounding square
row by row. -/
def filledCirclePoints (cx cy radius : Int) : List Point :=
  (List.range (2 * radius + 1).toNat).flatMap (fun j =>
    (List.range (2 * radius + 1).toNat).filterMap (fun i =>
      let x := (i : Int) - radius
      let y := (j : Int) - radius
      if x * x + y * y ≤ radius * radius then some ⟨cx + x, cy + y⟩ else Option.none))

/-- `getBrushPoints` from `utils/geometry.ts`. -/
def getBrushPoints (center : Point) (size : Nat) : List Point :=
  if size ≤ 1 then [center]
  else filledCirclePoints center.x center.y (size / 2 : Nat)

/-- `BaseTool.getBrushPointsWithSymmetry`, parameterised by the tool's
`usesBrushSize`/`usesSymmetry` flags. -/
def getBrushPointsWithSymmetry (usesBrushSize usesSymmetry : Bool) (point : Point)
    (ctx : ToolContext) : List Point :=
  let brushPoints := if usesBrushSize then getBrushPoints point ctx.brushSize else [point]
  if ¬ usesSymmetry ∨ ctx.symmetryMode = .none then brushPoints
  else brushPoints.flatMap (fun bp => applySymmetry bp ctx.symmetryMode ctx.width ctx.height)

/-- `BaseTool.getValidPoints`: brush + symmetry expansion, then bounds
filter, then paint-target filter. -/
def getValidPoints (usesBrushSize usesSymmetry : Bool) (point : Point)
    (ctx : ToolContext) : List Point :=
  ((getBrushPointsWithSymmetry usesBrushSize usesSymmetry point ctx).filter
    (fun p => isInBounds p.x p.y ctx.width ctx.height)).filter
    (fun p => isValidForPaintTarget p.x p.y ctx.paintTarget)

/-- `LineTool.updatePreview`: recompute the full Bresenham path, expand by
brush and symmetry, filter by bounds then paint target, and colour with the
stored preview colour. -/
def lineUpdatePreview (previewColor : RGBA) (p0 p1 : Point) (ctx : ToolContext) :
    List Pixel :=
  (bresenhamLine p0.x p0.y p1.x p1.y).flatMap (fun linePoint =>
    (((getBrushPointsWithSymmetry true true linePoint ctx).filter
        (fun p => isInBounds p.x p.y ctx.width ctx.height)).filter
        (fun p => isValidForPaintTarget p.x p.y ctx.paintTarget)).map
      (fun p => Pixel.mk p.x p.y previewColor))

/-- State owned by a `LineTool` instance. -/
structure LineToolState where
  state : ToolState
  previewColor : RGBA

/-- Paint a point list in order through `BaseTool.paintAt`. -/
def paintMany (st : ToolState) (img : Img) (ps : List Point) (color : RGBA)
    (ctx : ToolContext) : ToolState × Img :=
  ps.foldl (fun acc p => paintAt acc.1 acc.2 p color ctx) (st, img)

/-- `LineTool.onStart`. -/
def lineOnStart (ts : LineToolState) (point : Point) (ctx : ToolContext)
    (useSecondary : Bool) (img : Img) : LineToolState × ToolResult × Img :=
  let st := startStroke ts.state point
  let previewColor := if useSecondary then ctx.secondaryColor else ctx.primaryColor
  let st := { st with previewPixels := some (lineUpdatePreview previewColor point point ctx) }
  (⟨st, previewColor⟩, createResult st false, img)

/-- `LineTool.onMove`. -/
def lineOnMove (ts : LineToolState) (point : Point) (ctx : ToolContext)
    (img : Img) : LineToolState × ToolResult × Img :=
  if ¬ (ts.state.isActive = true ∧ ts.state.startPoint.isSome) then
    (ts, createResult ts.state false, img)
  else
    let startPt := ts.state.startPoint.getD point
    let st := { ts.state with currentPoint := some point }
    let st := { st with
      previewPixels := some (lineUpdatePreview ts.previewColor startPt point ctx) }
    (⟨st, ts.previewColor⟩, createResult st false, img)

/-- `LineTool.onEnd` (`drawLine` paints every valid point of the path). -/
def lineOnEnd (ts : LineToolState) (point : Point) (ctx : ToolContext)
    (img : Img) : LineToolState × ToolResult × Img :=
  if ¬ (ts.state.isActive = true ∧ ts.state.startPoint.isSome) then
    let st := endStroke ts.state
    (⟨st, ts.previewColor⟩, createResult st true, img)
  else
    let startPt := ts.state.startPoint.getD point
    let r := (bresenhamLine startPt.x startPt.y point.x point.y).foldl
      (fun acc lp => paintMany acc.1 acc.2 (getValidPoints true true lp ctx)
        ts.previewColor ctx) (ts.state, img)
    let st := { r.1 with previewPixels := some [] }
    let st := endStroke st
    (⟨st, ts.previewColor⟩, createResult st true, r.2)

/-- `gradientColors` from `utils/color.ts` (linear interpolation per
channel; the tools only call it with `steps ≥ 2`, so the `steps = 1`
division by zero never arises on the embedded call sites). -/
def gradientColors (cfrom cto : RGBA) (steps : Nat) : List RGBA :=
  (List.range steps).map (fun i =>
    let t : ℚ := (i : ℚ) / ((steps : ℚ) - 1)
    ⟨(jsRound ((cfrom.r : ℚ) + (((cto.r : ℚ) - (cfrom.r : ℚ))) * t)).toNat,
     (jsRound ((cfrom.g : ℚ) + (((cto.g : ℚ) - (cfrom.g : ℚ))) * t)).toNat,
     (jsRound ((cfrom.b : ℚ) + (((cto.b : ℚ) - (cfrom.b : ℚ))) * t)).toNat,
     (jsRound ((cfrom.a : ℚ) + (((cto.a : ℚ) - (cfrom.a : ℚ))) * t)).toNat⟩)

/-- `GradientTool.calculateGradientPixels`. -/
def calculateGradientPixels (p0 p1 : Point) (ctx : ToolContext) : List Pixel :=
  let linePoints := bresenhamLine p0.x p0.y p1.x p1.y
  if linePoints.length < 2 then
    [⟨p0.x, p0.y, ctx.primaryColor⟩]
  else
    let colors := gradientColors ctx.primaryColor ctx.secondaryColor linePoints.length
    (List.range linePoints.length).filterMap (fun i =>
      match linePoints[i]? with
      | Option.none => Option.none
      | some p =>
        let color := (colors[i]?).getD ctx.primaryColor
        if isInBounds p.x p.y ctx.width ctx.height
            && isValidForPaintTarget p.x p.y ctx.paintTarget
        then some ⟨p.x, p.y, color⟩ else Option.none)

/-- `GradientTool.onStart`. -/
def gradOnStart (st : ToolState) (point : Point) (ctx : ToolContext)
    (img : Img) : ToolState × ToolResult × Img :=
  let st := startStroke st point
  let st := { st with previewPixels := some (calculateGradientPixels point point ctx) }
  (st, createResult st false, img)

/-- `GradientTool.onMove`. -/
def gradOnMove (st : ToolState) (point : Point) (ctx : ToolContext)
    (img : Img) : ToolState × ToolResult × Img :=
  if ¬ (st.isActive = true ∧ st.startPoint.isSome) then
    (st, createResult st false, img)
  else
    let startPt := st.startPoint.getD point
    let st := { st with currentPoint := some point }
    let st := { st with previewPixels := some (calculateGradientPixels startPt point ctx) }
    (st, createResult st false, img)

/-- Clamp into `[0, 1]` (`Math.max(0, Math.min(1, t))`). -/
def clamp01 (q : ℚ) : ℚ := max 0 (min 1 q)

/-- `GradientTool.drawGradient`.  `totalDistance < 1` holds exactly when the
squared distance is 0; the projection divisor `totalDistance²` is embedded
as the exact squared distance (JavaScript computes it as
`sqrt(d²)·sqrt(d²)` in floats). -/
def drawGradient (st : ToolState) (img : Img) (p0 p1 : Point)
    (ctx : ToolContext) : ToolState × Img :=
  let dx := p1.x - p0.x
  let dy := p1.y - p0.y
  let d2 := dx * dx + dy * dy
  if d2 = 0 then
    if isInBounds p0.x p0.y ctx.width ctx.height
        && isValidForPaintTarget p0.x p0.y ctx.paintTarget
    then paintAt st img p0 ctx.primaryColor ctx
    else (st, img)
  else
    let minX := min p0.x p1.x
    let maxX := max p0.x p1.x
    let minY := min p0.y p1.y
    let maxY := max p0.y p1.y
    (List.range (maxY - minY + 1).toNat).foldl (fun accy j =>
      (List.range (maxX - minX + 1).toNat).foldl (fun acc i =>
        let x := minX + (i : Int)
        let y := minY + (j : Int)
        if isInBounds x y ctx.width ctx.height
            && isValidForPaintTarget x y ctx.paintTarget then
          let t := clamp01 ((((x - p0.x) * dx + (y - p0.y) * dy : Int) : ℚ) / (d2 : ℚ))
          let color : RGBA :=
            ⟨(jsRound ((ctx.primaryColor.r : ℚ)
              + ((ctx.secondaryColor.r : ℚ) - (ctx.primaryColor.r : ℚ)) * t)).toNat,
             (jsRound ((ctx.primaryColor.g : ℚ)
              + ((ctx.secondaryColor.g : ℚ) - (ctx.primaryColor.g : ℚ)) * t)).toNat,
             (jsRound ((ctx.primaryColor.b : ℚ)
              + ((ctx.secondaryColor.b : ℚ) - (ctx.primaryColor.b : ℚ)) * t)).toNat,
             (jsRound ((ctx.primaryColor.a : ℚ)
              + ((ctx.secondaryColor.a : ℚ) - (ctx.primaryColor.a : ℚ)) * t)).toNat⟩
          paintAt acc.1 acc.2 ⟨x, y⟩ color ctx
        else acc) accy) (st, img)

/-- `GradientTool.onEnd`. -/
def gradOnEnd (st : ToolState) (point : Point) (ctx : ToolContext)
    (img : Img) : ToolState × ToolResult × Img :=
  if ¬ (st.isActive = true ∧ st.startPoint.isSome) then
    let st := endStroke st
    (st, createResult st true, img)
  else
    let startPt := st.startPoint.getD point
    let r := drawGradient st img startPt point ctx
    let st := { r.1 with previewPixels := some [] }
    let st := endStroke st
    (st, createResult st true, r.2)

/-- C8: during a drag the line and gradient tools never touch the layer
pixel buffer — `onStart` and `onMove` return the image unchanged and only
recompute `previewPixels` (the full Bresenham path, brush/symmetry-expanded
and bounds/paint-target-filtered for the line tool; the interpolated path
pixels for the gradient tool); the buffer is first written only in
`onEnd`. -/
theorem C8_preview_does_not_touch_buffer (lts : LineToolState) (st : ToolState)
    (p0 p1 : Point) (ctx : ToolContext) (useSecondary : Bool) (img : Img) :
    (lineOnStart lts p1 ctx useSecondary img).2.2 = img
    ∧ (lineOnMove lts p1 ctx img).2.2 = img
    ∧ (gradOnStart st p1 ctx img).2.2 = img
    ∧ (gradOnMove st p1 ctx img).2.2 = img
    ∧ (lts.state.isActive = true → lts.state.startPoint = some p0 →
        (lineOnMove lts p1 ctx img).1.state.previewPixels =
          some (lineUpdatePreview lts.previewColor p0 p1 ctx))
    ∧ (st.isActive = true → st.startPoint = some p0 →
        (gradOnMove st p1 ctx img).1.previewPixels =
          some (calculateGradientPixels p0 p1 ctx)) := by
  refine ⟨rfl, ?_, rfl, ?_, ?_, ?_⟩
  · rw [lineOnMove]
    split <;> rfl
  · rw [gradOnMove]
    split <;> rfl
  · intro hact hsp
    rw [lineOnMove]
    rw [if_neg (by simp [hact, hsp])]
    simp [hsp]
  · intro hact hsp
    rw [gradOnMove]
    rw [if_neg (by simp [hact, hsp])]
    simp [hsp]

/-- Witness for C8: a concrete mid-drag move on both tools. -/
theorem C8_preview_does_not_touch_buffer_witness :
    ((⟨startStroke createToolState ⟨0, 0⟩, ⟨1, 2, 3, 4⟩⟩ : LineToolState).state.isActive = true
      ∧ (⟨startStroke createToolState ⟨0, 0⟩, ⟨1, 2, 3, 4⟩⟩ : LineToolState).state.startPoint
          = some ⟨0, 0⟩)
    ∧ (lineOnMove ⟨startStroke createToolState ⟨0, 0⟩, ⟨1, 2, 3, 4⟩⟩ ⟨2, 1⟩
        ⟨"l", ⟨1,2,3,4⟩, ⟨5,6,7,8⟩, 1, 1, .none, .base, 64, 64⟩ ⟨64, 64, []⟩).2.2
        = ⟨64, 64, []⟩
    ∧ (lineOnMove ⟨startStroke createToolState ⟨0, 0⟩, ⟨1, 2, 3, 4⟩⟩ ⟨2, 1⟩
        ⟨"l", ⟨1,2,3,4⟩, ⟨5,6,7,8⟩, 1, 1, .none, .base, 64, 64⟩ ⟨64, 64, []⟩).1.state.previewPixels
        = some (lineUpdatePreview ⟨1, 2, 3, 4⟩ ⟨0, 0⟩ ⟨2, 1⟩
            ⟨"l", ⟨1,2,3,4⟩, ⟨5,6,7,8⟩, 1, 1, .none, .base, 64, 64⟩) := by
  have h := C8_preview_does_not_touch_buffer
    ⟨startStroke createToolState ⟨0, 0⟩, ⟨1, 2, 3, 4⟩⟩ createToolState ⟨0, 0⟩ ⟨2, 1⟩
    ⟨"l", ⟨1,2,3,4⟩, ⟨5,6,7,8⟩, 1, 1, .none, .base, 64, 64⟩ false ⟨64, 64, []⟩
  exact ⟨⟨rfl, rfl⟩, h.2.1, h.2.2.2.2.1 rfl rfl⟩

/-! ## Fill tool (`tools/FillTool.ts`) -/

/-- All coordinates of a `width × height` canvas (used only to measure the
progress of the flood-fill loop). -/
def gridCells (width height : Int) : List (Int × Int) :=
  (List.range height.toNat).flatMap (fun j =>
    (List.range width.toNat).map (fun i => (Int.ofNat i, Int.ofNat j)))

theorem mem_gridCells (width height : Int) (x y : Int) :
    (x, y) ∈ gridCells width height ↔ isInBounds x y width height = true := by
  constructor
  · intro h
    rw [gridCells, List.mem_flatMap] at h
    obtain ⟨j, hj, h2⟩ := h
    rw [List.mem_map] at h2
    obtain ⟨i, hi, heq⟩ := h2
    rw [List.mem_range] at hj hi
    rw [Prod.mk.injEq] at heq
    obtain ⟨hx, hy⟩ := heq
    rw [Int.ofNat_eq_natCast] at hx hy
    subst hx
    subst hy
    rw [isInBounds]
    simp only [Bool.and_eq_true, decide_eq_true_eq]
    refine ⟨⟨⟨?_, ?_⟩, ?_⟩, ?_⟩ <;> omega
  · intro h
    rw [isInBounds] at h
    simp only [Bool.and_eq_true, decide_eq_true_eq] at h
    obtain ⟨⟨⟨hx0, hxw⟩, hy0⟩, hyh⟩ := h
    rw [gridCells, List.mem_flatMap]
    refine ⟨y.toNat, ?_, ?_⟩
    · rw [List.mem_range]
      omega
    · rw [List.mem_map]
      refine ⟨x.toNat, ?_, ?_⟩
      · rw [List.mem_range]
        omega
      · rw [Prod.mk.injEq]
        constructor <;> (rw [Int.ofNat_eq_natCast]; omega)

theorem length_filter_stronger {α : Type} (l : List α) (p q : α → Bool)
    (h : ∀ a, q a = true → p a = true) :
    (l.filter q).length ≤ (l.filter p).length := by
  induction l with
  | nil => simp
  | cons a l ih =>
    by_cases hq : q a = true
    · simp [List.filter_cons, hq, h a hq]
      omega
    · simp only [List.filter_cons]
      rw [if_neg (by simp [hq])]
      split
      · simp
        omega
      · exact ih

/-- Membership test on the visited set (kept as a named function so every
use shares one decidability instance). -/
def unvisited (vis : List (Int × Int)) (c : Int × Int) : Bool := decide (¬ c ∈ vis)

theorem length_filter_out (l : List (Int × Int))
    (vis : List (Int × Int)) (c : Int × Int) (hcl : c ∈ l) (hcv : c ∉ vis) :
    ((l.filter (unvisited (c :: vis))).length
      < (l.filter (unvisited vis)).length) := by
  induction l with
  | nil => simp at hcl
  | cons b l ih =>
    by_cases hbc : b = c
    · subst hbc
      simp only [List.filter_cons]
      rw [if_neg (by simp [unvisited]), if_pos (by simpa [unvisited] using hcv)]
      have := length_filter_stronger l (unvisited vis) (unvisited (b :: vis))
        (by intro a ha; simp [unvisited] at ha ⊢; exact fun h => absurd h ha.2)
      simp only [List.length_cons]
      omega
    · have hcl' : c ∈ l := by
        rcases List.mem_cons.mp hcl with h | h
        · exact absurd h.symm hbc
        · exact h
      have hmemiff : (b ∈ c :: vis) ↔ (b ∈ vis) := by
        simp [List.mem_cons, hbc]
      simp only [List.filter_cons]
      by_cases hbv : b ∈ vis
      · rw [if_neg (by simp [unvisited, hmemiff.mpr hbv]), if_neg (by simp [unvisited, hbv])]
        exact ih hcl'
      · rw [if_pos (by simp [unvisited, hbv, hbc, hmemiff]),
          if_pos (by simp [unvisited, hbv])]
        simp only [List.length_cons]
        have := ih hcl'
        omega

/-- Number of canvas cells not yet visited (the termination measure of the
flood-fill loop). -/
def freeCount (ctx : ToolContext) (visited : List (Int × Int)) : Nat :=
  ((gridCells ctx.width ctx.height).filter (unvisited visited)).length

theorem freeCount_lt (ctx : ToolContext) (visited : List (Int × Int)) (c : Int × Int)
    (hin : isInBounds c.1 c.2 ctx.width ctx.height = true) (hnv : c ∉ visited) :
    freeCount ctx (c :: visited) < freeCount ctx visited := by
  unfold freeCount
  have hmem : c ∈ gridCells ctx.width ctx.height := by
    have := (mem_gridCells ctx.width ctx.height c.1 c.2).mpr hin
    simpa using this
  exact length_filter_out _ _ _ hmem hnv

/-- The stack loop of `FillTool.floodFill`.  The stack top is at the head
(the TS array pops from its end, and pushes the four neighbours so that
`(x, y-1)` pops first); the visited `Set<string>` keyed by `pixelKey` is a
coordinate list.  Tolerance is the tool's `TOLERANCE = 10`. -/
def floodLoop (ctx : ToolContext) (targetColor fillColor : RGBA) :
    List Point → List (Int × Int) → ToolState → Img → ToolState × Img
  | [], _, st, img => (st, img)
  | point :: rest, visited, st, img =>
    if h1 : (point.x, point.y) ∈ visited then
      floodLoop ctx targetColor fillColor rest visited st img
    else if h2 : ¬ (isInBounds point.x point.y ctx.width ctx.height = true) then
      floodLoop ctx targetColor fillColor rest visited st img
    else if h3 : ¬ (isValidForPaintTarget point.x point.y ctx.paintTarget = true) then
      floodLoop ctx targetColor fillColor rest visited st img
    else if h4 : ¬ (colorsEqual (getPixel img point.x point.y) targetColor 10 = true) then
      floodLoop ctx targetColor fillColor rest visited st img
    else
      let visited2 := (point.x, point.y) :: visited
      let r := paintAt st img point fillColor ctx
      floodLoop ctx targetColor fillColor
        (⟨point.x, point.y - 1⟩ :: ⟨point.x, point.y + 1⟩ ::
          ⟨point.x - 1, point.y⟩ :: ⟨point.x + 1, point.y⟩ :: rest)
        visited2 r.1 r.2
termination_by stack visited _ _ => 5 * freeCount ctx visited + stack.length
decreasing_by
  · simp_wf
  · simp_wf
  · simp_wf
  · simp_wf
  · simp_wf
    have hin : isInBounds point.x point.y ctx.width ctx.height = true := by
      by_contra hc
      exact h2 hc
    have hdec := freeCount_lt ctx visited (point.x, point.y) hin h1
    omega

/-- `FillTool.floodFill` (the guards before the loop). -/
def floodFill (st : ToolState) (startPoint : Point) (fillColor : RGBA)
    (ctx : ToolContext) (img : Img) : ToolState × Img :=
  if ¬ (isInBounds startPoint.x startPoint.y ctx.width ctx.height = true) then (st, img)
  else if ¬ (isValidForPaintTarget startPoint.x startPoint.y ctx.paintTarget = true) then
    (st, img)
  else
    let targetColor := getPixel img startPoint.x startPoint.y
    if colorsEqual targetColor fillColor 0 = true then (st, img)
    else floodLoop ctx targetColor fillColor [startPoint] [] st img

/-- `FillTool.onStart`. -/
def fillOnStart (st : ToolState) (point : Point) (ctx : ToolContext)
    (useSecondary : Bool) (img : Img) : ToolState × ToolResult × Img :=
  let st := startStroke st point
  let color := if useSecondary then ctx.secondaryColor else ctx.primaryColor
  let r := floodFill st point color ctx img
  let st := endStroke r.1
  (st, createResult st true, r.2)

/-- The byte cell of the pixel at `(x, y)` under stride `width`. -/
def inPixRange (width : Nat) (x y : Int) (a : Nat) : Prop :=
  pixIdx width x y ≤ (a : Int) ∧ (a : Int) < pixIdx width x y + 4

/-- A fillable pixel: in bounds, in the paint-target region, and matching
the target colour within the tool's tolerance on the original image. -/
def GoodFill (ctx : ToolContext) (img0 : Img) (targetColor : RGBA) (x y : Int) : Prop :=
  isInBounds x y ctx.width ctx.height = true
  ∧ isValidForPaintTarget x y ctx.paintTarget = true
  ∧ colorsEqual (getPixel img0 x y) targetColor 10 = true

/-- 4-connectedness to the fill's start point through fillable pixels. -/
inductive FillReach (ctx : ToolContext) (img0 : Img) (targetColor : RGBA)
    (sp : Point) : Int → Int → Prop
  | start : FillReach ctx img0 targetColor sp sp.x sp.y
  | step (x y x' y' : Int) :
      FillReach ctx img0 targetColor sp x y →
      GoodFill ctx img0 targetColor x y →
      (x' - x).natAbs + (y' - y).natAbs = 1 →
      FillReach ctx img0 targetColor sp x' y'

theorem writeByte_getElem?_ne (d : List Nat) (i : Int) (v : Nat) (a : Nat)
    (h : ¬ ((a : Int) = i)) : (writeByte d i v)[a]? = d[a]? := by
  rw [writeByte]
  split
  · rename_i h0
    rw [List.getElem?_set_ne (by omega)]
  · rfl

theorem setPixel_getElem?_outside (img : Img) (x y : Int) (c : RGBA) (a : Nat)
    (h : ¬ inPixRange img.width x y a) :
    (setPixel img x y c).data[a]? = img.data[a]? := by
  rw [inPixRange] at h
  push_neg at h
  have h4 : ∀ k : Int, pixIdx img.width x y ≤ k → k < pixIdx img.width x y + 4 →
      ¬ ((a : Int) = k) := by
    intro k hk1 hk2 heq
    have := h (by omega)
    omega
  show (writeByte (writeByte (writeByte (writeByte img.data
      (pixIdx img.width x y) c.r) (pixIdx img.width x y + 1) c.g)
      (pixIdx img.width x y + 2) c.b) (pixIdx img.width x y + 3) c.a)[a]? = img.data[a]?
  rw [writeByte_getElem?_ne _ _ _ _ (h4 _ (by omega) (by omega)),
    writeByte_getElem?_ne _ _ _ _ (h4 _ (by omega) (by omega)),
    writeByte_getElem?_ne _ _ _ _ (h4 _ (by omega) (by omega)),
    writeByte_getElem?_ne _ _ _ _ (h4 _ (by omega) (by omega))]

theorem paintAt_shape (st : ToolState) (img : Img) (p : Point) (color : RGBA)
    (ctx : ToolContext) :
    (paintAt st img p color ctx).2.width = img.width
    ∧ (paintAt st img p color ctx).2.height = img.height
    ∧ (paintAt st img p color ctx).2.data.length = img.data.length := by
  rw [paintAt]
  split <;> exact shape_setPixel _ _ _ _

theorem paintAt_getElem?_outside (st : ToolState) (img : Img) (p : Point)
    (color : RGBA) (ctx : ToolContext) (a : Nat)
    (h : ¬ inPixRange img.width p.x p.y a) :
    (paintAt st img p color ctx).2.data[a]? = img.data[a]? := by
  rw [paintAt]
  split <;> exact setPixel_getElem?_outside _ _ _ _ _ h

/-- Distinct in-bounds pixels occupy disjoint byte cells. -/
theorem inPixRange_disjoint (img0 : Img) (x y x' y' : Int) (a : Nat)
    (hb : isInBounds x y (img0.width : Int) (img0.height : Int) = true)
    (hb' : isInBounds x' y' (img0.width : Int) (img0.height : Int) = true)
    (hne : ¬ (x = x' ∧ y = y'))
    (h1 : inPixRange img0.width x y a) (h2 : inPixRange img0.width x' y' a) : False := by
  rw [isInBounds] at hb hb'
  simp only [Bool.and_eq_true, decide_eq_true_eq] at hb hb'
  obtain ⟨⟨⟨hx0, hxw⟩, hy0⟩, hyh⟩ := hb
  obtain ⟨⟨⟨hx0', hxw'⟩, hy0'⟩, hyh'⟩ := hb'
  rw [inPixRange, pixIdx] at h1 h2
  have hw : (0 : Int) < (img0.width : Int) := by omega
  set K := y * (img0.width : Int) + x with hK
  set K' := y' * (img0.width : Int) + x' with hK'
  have hkey : K = K' := by omega
  rw [hK, hK'] at hkey
  rcases lt_trichotomy y y' with hlt | heqy | hgt
  · have h6 : (y' - y) * (img0.width : Int) = x - x' := by linear_combination -hkey
    have h7 : (img0.width : Int) ≤ (y' - y) * (img0.width : Int) :=
      le_mul_of_one_le_left (le_of_lt hw) (by omega)
    linarith
  · subst heqy
    have hx : x = x' := by linarith
    exact hne ⟨hx, rfl⟩
  · have h6 : (y - y') * (img0.width : Int) = x' - x := by linear_combination hkey
    have h7 : (img0.width : Int) ≤ (y - y') * (img0.width : Int) :=
      le_mul_of_one_le_left (le_of_lt hw) (by omega)
    linarith

theorem getPixel_eq_of_bytes (img img0 : Img) (x y : Int)
    (hwid : img.width = img0.width)
    (hb : ∀ a : Nat, inPixRange img0.width x y a → img.data[a]? = img0.data[a]?) :
    getPixel img x y = getPixel img0 x y := by
  have e1 : getPixel img x y =
      ⟨readByte img.data (pixIdx img.width x y),
       readByte img.data (pixIdx img.width x y + 1),
       readByte img.data (pixIdx img.width x y + 2),
       readByte img.data (pixIdx img.width x y + 3)⟩ := rfl
  have e0 : getPixel img0 x y =
      ⟨readByte img0.data (pixIdx img0.width x y),
       readByte img0.data (pixIdx img0.width x y + 1),
       readByte img0.data (pixIdx img0.width x y + 2),
       readByte img0.data (pixIdx img0.width x y + 3)⟩ := rfl
  have hrb : ∀ j : Int, pixIdx img0.width x y ≤ j → j < pixIdx img0.width x y + 4 →
      readByte img.data j = readByte img0.data j := by
    intro j hj1 hj2
    rw [readByte, readByte]
    by_cases h0 : (0 : Int) ≤ j
    · rw [if_pos h0, if_pos h0]
      have hr : inPixRange img0.width x y j.toNat := by
        rw [inPixRange]
        constructor <;> omega
      have hbj := hb j.toNat hr
      rw [List.getD_eq_getElem?_getD, List.getD_eq_getElem?_getD, hbj]
    · rw [if_neg h0, if_neg h0]
  rw [e1, e0, hwid]
  rw [hrb _ (by omega) (by omega), hrb _ (by omega) (by omega),
    hrb _ (by omega) (by omega), hrb _ (by omega) (by omega)]

/-- Invariant of the flood-fill stack loop: every byte the loop changes lies
in the cell of a pixel that is fillable and 4-connected to the start. -/
theorem floodLoop_spec (ctx : ToolContext) (targetColor fillColor : RGBA)
    (img0 : Img) (sp : Point)
    (hwd : ctx.width = (img0.width : Int)) (hht : ctx.height = (img0.height : Int)) :
    ∀ (stack : List Point) (visited : List (Int × Int)) (st : ToolState) (img : Img),
      img.width = img0.width →
      (∀ c ∈ visited, GoodFill ctx img0 targetColor c.1 c.2
        ∧ FillReach ctx img0 targetColor sp c.1 c.2) →
      (∀ a : Nat, ¬ (img.data[a]? = img0.data[a]?) →
        ∃ c ∈ visited, inPixRange img0.width c.1 c.2 a) →
      (∀ p ∈ stack, FillReach ctx img0 targetColor sp p.x p.y) →
      ((floodLoop ctx targetColor fillColor stack visited st img).2.width = img0.width
       ∧ ∀ a : Nat,
          ¬ ((floodLoop ctx targetColor fillColor stack visited st img).2.data[a]?
            = img0.data[a]?) →
          ∃ x y, GoodFill ctx img0 targetColor x y ∧ FillReach ctx img0 targetColor sp x y
            ∧ inPixRange img0.width x y a) := by
  intro stack visited st img
  induction stack, visited, st, img using floodLoop.induct ctx targetColor fillColor with
  | case1 visited st img =>
    intro hwid hvis hbyte _
    rw [floodLoop]
    refine ⟨hwid, ?_⟩
    intro a ha
    obtain ⟨c, hcv, hcr⟩ := hbyte a ha
    exact ⟨c.1, c.2, (hvis c hcv).1, (hvis c hcv).2, hcr⟩
  | case2 point rest visited st img h1 ih =>
    intro hwid hvis hbyte hstack
    rw [floodLoop, dif_pos h1]
    exact ih hwid hvis hbyte (fun p hp => hstack p (List.mem_cons_of_mem _ hp))
  | case3 point rest visited st img h1 h2 ih =>
    intro hwid hvis hbyte hstack
    rw [floodLoop, dif_neg h1, dif_pos h2]
    exact ih hwid hvis hbyte (fun p hp => hstack p (List.mem_cons_of_mem _ hp))
  | case4 point rest visited st img h1 h2 h3 ih =>
    intro hwid hvis hbyte hstack
    rw [floodLoop, dif_neg h1, dif_neg h2, dif_pos h3]
    exact ih hwid hvis hbyte (fun p hp => hstack p (List.mem_cons_of_mem _ hp))
  | case5 point rest visited st img h1 h2 h3 h4 ih =>
    intro hwid hvis hbyte hstack
    rw [floodLoop, dif_neg h1, dif_neg h2, dif_neg h3, dif_pos h4]
    exact ih hwid hvis hbyte (fun p hp => hstack p (List.mem_cons_of_mem _ hp))
  | case6 point rest visited st img h1 h2 h3 h4 v2 r ih =>
    intro hwid hvis hbyte hstack
    have hb := not_not.mp h2
    have hv := not_not.mp h3
    have hcol := not_not.mp h4
    -- bytes of the popped pixel are still original
    have hpix : ∀ a : Nat, inPixRange img0.width point.x point.y a →
        img.data[a]? = img0.data[a]? := by
      intro a ha
      by_contra hc
      obtain ⟨c, hcv, hcr⟩ := hbyte a hc
      have hGc := (hvis c hcv).1
      have hcb : isInBounds c.1 c.2 (img0.width : Int) (img0.height : Int) = true := by
        have := hGc.1
        rwa [hwd, hht] at this
      have hpb : isInBounds point.x point.y (img0.width : Int) (img0.height : Int) = true := by
        rwa [hwd, hht] at hb
      refine inPixRange_disjoint img0 c.1 c.2 point.x point.y a hcb hpb ?_ hcr ha
      rintro ⟨hcx, hcy⟩
      apply h1
      have : c = (point.x, point.y) := by
        rw [Prod.ext_iff]
        exact ⟨hcx, hcy⟩
      rw [← this]
      exact hcv
    have hgp : getPixel img point.x point.y = getPixel img0 point.x point.y := by
      apply getPixel_eq_of_bytes img img0 point.x point.y hwid
      intro a ha
      exact hpix a ha
    have hGood : GoodFill ctx img0 targetColor point.x point.y := by
      refine ⟨hb, hv, ?_⟩
      rw [← hgp]
      exact hcol
    have hReach : FillReach ctx img0 targetColor sp point.x point.y :=
      hstack point (List.mem_cons_self _ _)
    have hstep : floodLoop ctx targetColor fillColor (point :: rest) visited st img
        = floodLoop ctx targetColor fillColor
            (⟨point.x, point.y - 1⟩ :: ⟨point.x, point.y + 1⟩ ::
             ⟨point.x - 1, point.y⟩ :: ⟨point.x + 1, point.y⟩ :: rest)
            ((point.x, point.y) :: visited)
            (paintAt st img point fillColor ctx).1 (paintAt st img point fillColor ctx).2 := by
      rw [floodLoop]
      rw [dif_neg h1, dif_neg h2, dif_neg h3, dif_neg h4]
    rw [hstep]
    apply ih
    · show (paintAt st img point fillColor ctx).2.width = img0.width
      rw [(paintAt_shape st img point fillColor ctx).1]
      exact hwid
    · show ∀ c ∈ (point.x, point.y) :: visited,
        GoodFill ctx img0 targetColor c.1 c.2 ∧ FillReach ctx img0 targetColor sp c.1 c.2
      intro c hc
      rcases List.mem_cons.mp hc with hceq | hcv
      · rw [hceq]
        exact ⟨hGood, hReach⟩
      · exact hvis c hcv
    · show ∀ a : Nat, ¬ ((paintAt st img point fillColor ctx).2.data[a]? = img0.data[a]?) →
        ∃ c ∈ (point.x, point.y) :: visited, inPixRange img0.width c.1 c.2 a
      intro a ha
      by_cases hsame : (paintAt st img point fillColor ctx).2.data[a]? = img.data[a]?
      · rw [hsame] at ha
        obtain ⟨c, hcv, hcr⟩ := hbyte a ha
        exact ⟨c, List.mem_cons_of_mem _ hcv, hcr⟩
      · refine ⟨(point.x, point.y), List.mem_cons_self _ _, ?_⟩
        by_contra hrange
        apply hsame
        apply paintAt_getElem?_outside
        rw [hwid]
        exact hrange
    · intro p hp
      rcases List.mem_cons.mp hp with rfl | hp'
      · exact FillReach.step _ _ _ _ hReach hGood (by simp)
      rcases List.mem_cons.mp hp' with rfl | hp''
      · exact FillReach.step _ _ _ _ hReach hGood (by simp)
      rcases List.mem_cons.mp hp'' with rfl | hp'''
      · exact FillReach.step _ _ _ _ hReach hGood (by simp)
      rcases List.mem_cons.mp hp''' with rfl | hp''''
      · exact FillReach.step _ _ _ _ hReach hGood (by simp)
      · exact hstack p (List.mem_cons_of_mem _ hp'''')

theorem floodFill_eq (st : ToolState) (p : Point) (fc : RGBA) (ctx : ToolContext)
    (img : Img) :
    floodFill st p fc ctx img
    = if ¬ (isInBounds p.x p.y ctx.width ctx.height = true) then (st, img)
      else if ¬ (isValidForPaintTarget p.x p.y ctx.paintTarget = true) then (st, img)
      else if colorsEqual (getPixel img p.x p.y) fc 0 = true then (st, img)
      else floodLoop ctx (getPixel img p.x p.y) fc [p] [] st img := rfl

/-- C4: every byte `FillTool.onStart` modifies belongs to the cell of a pixel
that is in canvas bounds, classifies as the context's paint target, matches
the original colour at the start point within per-channel tolerance 10
(`GoodFill`), and is 4-connected to the start point through such pixels
(`FillReach`); and when the colour at the start point equals the fill colour
with tolerance 0, the pixel buffer is returned unchanged. -/
theorem C4_fill_bounded_and_noop (st : ToolState) (point : Point) (ctx : ToolContext)
    (useSecondary : Bool) (img : Img)
    (hw : ctx.width = (img.width : Int)) (hh : ctx.height = (img.height : Int)) :
    (∀ a : Nat,
      ¬ ((fillOnStart st point ctx useSecondary img).2.2.data[a]? = img.data[a]?) →
      ∃ x y, GoodFill ctx img (getPixel img point.x point.y) x y
        ∧ FillReach ctx img (getPixel img point.x point.y) point x y
        ∧ inPixRange img.width x y a)
    ∧ (colorsEqual (getPixel img point.x point.y)
        (if useSecondary then ctx.secondaryColor else ctx.primaryColor) 0 = true →
       (fillOnStart st point ctx useSecondary img).2.2 = img) := by
  have hout : (fillOnStart st point ctx useSecondary img).2.2
      = (floodFill (startStroke st point) point
          (if useSecondary then ctx.secondaryColor else ctx.primaryColor) ctx img).2 := rfl
  constructor
  · intro a ha
    rw [hout, floodFill_eq] at ha
    by_cases g1 : ¬ (isInBounds point.x point.y ctx.width ctx.height = true)
    · rw [if_pos g1] at ha
      exact absurd rfl ha
    · rw [if_neg g1] at ha
      by_cases g2 : ¬ (isValidForPaintTarget point.x point.y ctx.paintTarget = true)
      · rw [if_pos g2] at ha
        exact absurd rfl ha
      · rw [if_neg g2] at ha
        by_cases g3 : colorsEqual (getPixel img point.x point.y)
            (if useSecondary then ctx.secondaryColor else ctx.primaryColor) 0 = true
        · rw [if_pos g3] at ha
          exact absurd rfl ha
        · rw [if_neg g3] at ha
          have hspec := floodLoop_spec ctx (getPixel img point.x point.y)
            (if useSecondary then ctx.secondaryColor else ctx.primaryColor) img point hw hh
            [point] [] (startStroke st point) img rfl
            (by intro c hc; exact absurd hc (List.not_mem_nil c))
            (by intro a' ha'; exact absurd rfl ha')
            (by
              intro p hp
              rcases List.mem_cons.mp hp with rfl | hp'
              · exact FillReach.start
              · exact absurd hp' (List.not_mem_nil p))
          exact hspec.2 a ha
  · intro hcol
    rw [hout, floodFill_eq]
    by_cases g1 : ¬ (isInBounds point.x point.y ctx.width ctx.height = true)
    · rw [if_pos g1]
    · rw [if_neg g1]
      by_cases g2 : ¬ (isValidForPaintTarget point.x point.y ctx.paintTarget = true)
      · rw [if_pos g2]
      · rw [if_neg g2, if_pos hcol]

theorem C4_fill_bounded_and_noop_witness :
    (fillOnStart createToolState ⟨0, 0⟩
      ⟨"layer1", ⟨0, 0, 0, 0⟩, ⟨255, 255, 255, 255⟩, 1, 1,
        SymmetryMode.none, PaintTarget.base, 1, 1⟩
      false ⟨1, 1, [0, 0, 0, 0]⟩).2.2 = ⟨1, 1, [0, 0, 0, 0]⟩ :=
  (C4_fill_bounded_and_noop createToolState ⟨0, 0⟩
    ⟨"layer1", ⟨0, 0, 0, 0⟩, ⟨255, 255, 255, 255⟩, 1, 1,
      SymmetryMode.none, PaintTarget.base, 1, 1⟩
    false ⟨1, 1, [0, 0, 0, 0]⟩ (by decide) (by decide)).2 (by decide)
